import Mathlib

/-!
Verification development for the grok2api request-fulfillment engine.

Shallow embedding of the core data model and operations:
  * SHA-256 (used by `ConversationManager.compute_history_hash`),
  * the conversation manager (`app/services/conversation_manager.py`),
  * the token pool and its buckets (`app/services/token/pool.py`),
  * the cross-token retry loop (`app/services/grok/services/chat.py`),
  * the three-tier stream timeout wrapper (`app/services/grok/utils/process.py`),
  * the stream processor framing/think-marker logic (`chat.py`).

Machine integers are modelled as `Nat`/`Int` with explicit reductions mod 2^32
where the SHA-256 rounds require it.  Python dicts are modelled as association
lists with dict-style insert/overwrite/pop operations.  Randomness (used by
`_TokenBucket.pick`) is modelled by an explicit list of random draws supplied
as an argument; all theorems quantify over the draws.
-/

namespace Grok2Api

/-! ## SHA-256 (executable model, bytes as `Nat` < 256, words as `Nat` < 2^32) -/

def w32 : Nat := 4294967296

/-- Word-level rotation right by `n` bits of a 32-bit value. -/
def rotr (n x : Nat) : Nat := ((x >>> n) ||| (x <<< (32 - n))) % w32

def shr (n x : Nat) : Nat := x >>> n

def bxor (a b : Nat) : Nat := a ^^^ b

/-- Round constants of SHA-256 (fractional parts of cube roots of the first 64 primes). -/
def shaK : List Nat :=
  [1116352408, 1899447441, 3049323471, 3921009573,
   961987163, 1508970993, 2453635748, 2870763221,
   3624381080, 310598401, 607225278, 1426881987,
   1925078388, 2162078206, 2614888103, 3248222580,
   3835390401, 4022224774, 264347078, 604807628,
   770255983, 1249150122, 1555081692, 1996064986,
   2554220882, 2821834349, 2952996808, 3210313671,
   3336571891, 3584528711, 113926993, 338241895,
   666307205, 773529912, 1294757372, 1396182291,
   1695183700, 1986661051, 2177026350, 2456956037,
   2730485921, 2820302411, 3259730800, 3345764771,
   3516065817, 3600352804, 4094571909, 275423344,
   430227734, 506948616, 659060556, 883997877,
   958139571, 1322822218, 1537002063, 1747873779,
   1955562222, 2024104815, 2227730452, 2361852424,
   2428436474, 2756734187, 3204031479, 3329325298]

/-- Initial hash state of SHA-256. -/
def shaH0 : List Nat :=
  [1779033703, 3144134277, 1013904242, 2773480762,
   1359893119, 2600822924, 528734635, 1541459225]

/-- Message padding: append 0x80, zero bytes to 56 mod 64, then the 8-byte
big-endian bit length. -/
def shaPad (msg : List Nat) : List Nat :=
  let len := msg.length
  let bitLen := len * 8
  let zeroCount := (64 + 56 - (len + 1) % 64) % 64
  let lenBytes := (List.range 8).map (fun i => (bitLen >>> ((7 - i) * 8)) % 256)
  msg ++ [0x80] ++ List.replicate zeroCount 0 ++ lenBytes

/-- Group a byte list into big-endian 32-bit words (4 bytes per word). -/
def bytesToWords : List Nat → List Nat
  | b0 :: b1 :: b2 :: b3 :: rest =>
      (((b0 * 256 + b1) * 256 + b2) * 256 + b3) :: bytesToWords rest
  | _ => []

/-- Split a list into chunks of 16 words (one SHA-256 block).  The padded
message always has a multiple of 16 words; a trailing partial chunk (which
never occurs for padded input) is dropped.  Structural recursion so that the
definition reduces inside the kernel. -/
def toBlocks : List Nat → List (List Nat)
  | w0 :: w1 :: w2 :: w3 :: w4 :: w5 :: w6 :: w7 ::
    w8 :: w9 :: w10 :: w11 :: w12 :: w13 :: w14 :: w15 :: rest =>
      [w0, w1, w2, w3, w4, w5, w6, w7, w8, w9, w10, w11, w12, w13, w14, w15]
        :: toBlocks rest
  | _ => []

/-- Message-schedule extension: extend the 16 block words to 64 words. -/
def shaExtend (ws : List Nat) (i : Nat) : List Nat :=
  match i with
  | 0 => ws
  | n + 1 =>
      let ws := shaExtend ws n
      let j := ws.length
      let g := fun k => ws.getD k 0
      let s0 := bxor (bxor (rotr 7 (g (j - 15))) (rotr 18 (g (j - 15)))) (shr 3 (g (j - 15)))
      let s1 := bxor (bxor (rotr 17 (g (j - 2))) (rotr 19 (g (j - 2)))) (shr 10 (g (j - 2)))
      ws ++ [(g (j - 16) + s0 + g (j - 7) + s1) % w32]

/-- One round of the SHA-256 compression function. -/
def shaRound (st : List Nat) (kw : Nat × Nat) : List Nat :=
  match st with
  | [a, b, c, d, e, f, g, h] =>
      let s1 := bxor (bxor (rotr 6 e) (rotr 11 e)) (rotr 25 e)
      let ch := bxor (e &&& f) ((w32 - 1 - e) &&& g)
      let temp1 := (h + s1 + ch + kw.1 + kw.2) % w32
      let s0 := bxor (bxor (rotr 2 a) (rotr 13 a)) (rotr 22 a)
      let maj := bxor (bxor (a &&& b) (a &&& c)) (b &&& c)
      let temp2 := (s0 + maj) % w32
      [(temp1 + temp2) % w32, a, b, c, (d + temp1) % w32, e, f, g]
  | other => other

/-- Compress one 16-word block into the running hash state. -/
def shaCompress (hstate : List Nat) (block : List Nat) : List Nat :=
  let ws := shaExtend block 48
  let out := (shaK.zip ws).foldl shaRound hstate
  (hstate.zip out).map (fun p => (p.1 + p.2) % w32)

/-- SHA-256 of a byte list, as a list of eight 32-bit words. -/
def sha256Words (msg : List Nat) : List Nat :=
  (toBlocks (bytesToWords (shaPad msg))).foldl shaCompress shaH0

def hexDigit (n : Nat) : Char :=
  if n < 10 then Char.ofNat (48 + n) else Char.ofNat (87 + n)

/-- Hex rendering of a 32-bit word (8 hex digits, most significant first). -/
def wordToHex (x : Nat) : List Char :=
  (List.range 8).map (fun i => hexDigit ((x >>> ((7 - i) * 4)) % 16))

/-- Hex digest of SHA-256 over a byte list. -/
def sha256Hex (msg : List Nat) : String :=
  String.mk ((sha256Words msg).flatMap wordToHex)

/-- UTF-8 encoding of one code point. -/
def utf8EncodeChar (c : Char) : List Nat :=
  let n := c.toNat
  if n < 0x80 then [n]
  else if n < 0x800 then [0xC0 + n / 64, 0x80 + n % 64]
  else if n < 0x10000 then
    [0xE0 + n / 4096, 0x80 + (n / 64) % 64, 0x80 + n % 64]
  else
    [0xF0 + n / 262144, 0x80 + (n / 4096) % 64, 0x80 + (n / 64) % 64, 0x80 + n % 64]

/-- UTF-8 encoding of a string as a byte list. -/
def utf8Encode (s : String) : List Nat :=
  s.data.flatMap utf8EncodeChar

/-- SHA-256 hex digest of the UTF-8 encoding of a string. -/
def sha256HexOfString (s : String) : String :=
  sha256Hex (utf8Encode s)

/-- Slice of the first `n` characters of a string (Python `s[:n]`), defined on
the character list so that it evaluates inside the kernel. -/
def takeChars (n : Nat) (s : String) : String :=
  String.mk (s.data.take n)

/-! ## OpenAI message model and `ConversationManager.compute_history_hash`
(`app/services/conversation_manager.py`, lines 63-104). -/

/-- One item of a list-form message content (`{"type": ..., "text": ...}`). -/
structure ContentItem where
  typ : String
  text : String
  deriving DecidableEq, Repr

/-- Message content: either a plain string or the list form. -/
inductive Content where
  | str (s : String)
  | items (l : List ContentItem)
  deriving DecidableEq, Repr

/-- One chat message with a role and content. -/
structure Message where
  role : String
  content : Content
  deriving DecidableEq, Repr

/-- Text extraction used by `compute_history_hash`: a string content is taken
verbatim, a list-form content joins the `text` of items whose `type` is
`"text"`. -/
def contentText (c : Content) : String :=
  match c with
  | .str s => s
  | .items l => String.join ((l.filter (fun i => i.typ = "text")).map (fun i => i.text))

/-- One step of the message scan in `compute_history_hash`. -/
def historyStep (acc : List String × List String × Bool) (msg : Message) :
    List String × List String × Bool :=
  if msg.role = "system" then
    (acc.1 ++ ["system:" ++ contentText msg.content], acc.2.1, acc.2.2)
  else if msg.role = "user" then
    (acc.1, acc.2.1 ++ ["user:" ++ contentText msg.content], acc.2.2)
  else if msg.role = "assistant" then
    (acc.1, acc.2.1, true)
  else acc

/-- State of the message scan in `compute_history_hash`: collected
`system:`-lines, collected `user:`-lines, and the has-assistant flag. -/
def historyScan (messages : List Message) : List String × List String × Bool :=
  messages.foldl historyStep ([], [], false)

/-- Join a list of strings with a separator. -/
def joinSep (sep : String) : List String → String
  | [] => ""
  | [x] => x
  | x :: xs => x ++ sep ++ joinSep sep xs

/-- Translation of `ConversationManager.compute_history_hash`: collect
`system:` lines and `user:` lines in separate lists, optionally drop the last
user line when an assistant message was seen, join system lines followed by
user lines with a newline, SHA-256 the UTF-8 bytes and keep the first 16 hex
characters.  Empty inputs and inputs without any system/user line yield the
empty string. -/
def compute_history_hash (messages : List Message) (exclude_last_user : Bool := false) : String :=
  if messages = [] then ""
  else
    let scan := historyScan messages
    let systemParts := scan.1
    let userParts :=
      if exclude_last_user ∧ scan.2.2 ∧ scan.2.1 ≠ [] then scan.2.1.dropLast
      else scan.2.1
    let keyParts := systemParts ++ userParts
    if keyParts = [] then ""
    else takeChars 16 (sha256HexOfString (joinSep "\n" keyParts))

/-- Spec-worded definition for claim C5, as the claim states it: the lines are
built by iterating the messages in order, keeping the original interleaved
message order (a user line may precede a system line).  The exclusion rule
drops the last user line of the interleaved sequence when an assistant message
is present. -/
def specHashInterleaved (messages : List Message) (exclude_last_user : Bool := false) : String :=
  if messages = [] then ""
  else
    let lines := messages.foldl
      (fun (acc : List String × Bool) msg =>
        if msg.role = "system" then (acc.1 ++ ["system:" ++ contentText msg.content], acc.2)
        else if msg.role = "user" then (acc.1 ++ ["user:" ++ contentText msg.content], acc.2)
        else if msg.role = "assistant" then (acc.1, true)
        else acc)
      ([], false)
    let hasUser := lines.1.any (fun l => takeChars 5 l = "user:")
    let keyParts :=
      if exclude_last_user ∧ lines.2 ∧ hasUser then
        -- drop the last user line, keeping the interleaved order otherwise
        let rev := lines.1.reverse
        let idx := rev.findIdx (fun l => takeChars 5 l = "user:")
        (rev.take idx ++ rev.drop (idx + 1)).reverse
      else lines.1
    if keyParts = [] then ""
    else takeChars 16 (sha256HexOfString (joinSep "\n" keyParts))

/-- Lines `system:<text>` of the system messages, in message order. -/
def sysLines (messages : List Message) : List String :=
  (messages.filter (fun m => m.role = "system")).map
    (fun m => "system:" ++ contentText m.content)

/-- Lines `user:<text>` of the user messages, in message order. -/
def userLines (messages : List Message) : List String :=
  (messages.filter (fun m => m.role = "user")).map
    (fun m => "user:" ++ contentText m.content)

/-- Whether some message has the assistant role. -/
def hasAssistantB (messages : List Message) : Bool :=
  messages.any (fun m => m.role = "assistant")

/-- Spec-worded definition for the amended claim C5: the hashed lines are the
`system:` lines in message order followed by the `user:` lines in message
order (grouped by role), with the last user line dropped under
`exclude_last_user` when an assistant message is present. -/
def specHashGrouped (messages : List Message) (exclude_last_user : Bool := false) : String :=
  if messages = [] then ""
  else
    let userPart :=
      if exclude_last_user ∧ hasAssistantB messages ∧ userLines messages ≠ [] then
        (userLines messages).dropLast
      else userLines messages
    let keyParts := sysLines messages ++ userPart
    if keyParts = [] then ""
    else takeChars 16 (sha256HexOfString (joinSep "\n" keyParts))

/-! ## Association-list model of Python dicts (insertion ordered, unique keys) -/

/-- Dict lookup (`d.get(k)`). -/
def alistGet {κ α : Type} [DecidableEq κ] (l : List (κ × α)) (k : κ) : Option α :=
  (l.find? (fun p => p.1 = k)).map (fun p => p.2)

/-- Dict assignment (`d[k] = v`): replace in place when the key exists,
append otherwise. -/
def alistInsert {κ α : Type} [DecidableEq κ] (l : List (κ × α)) (k : κ) (v : α) : List (κ × α) :=
  if (l.find? (fun p => p.1 = k)).isSome then
    l.map (fun p => if p.1 = k then (k, v) else p)
  else l ++ [(k, v)]

/-- Dict removal (`d.pop(k, None)`). -/
def alistPop {κ α : Type} [DecidableEq κ] (l : List (κ × α)) (k : κ) : List (κ × α) :=
  l.filter (fun p => p.1 ≠ k)

/-- Keys of a dict are pairwise distinct. -/
def NodupKeys {κ α : Type} (l : List (κ × α)) : Prop :=
  (l.map (fun p => p.1)).Nodup

/-! ## ConversationManager (`app/services/conversation_manager.py`)

The manager owns the primary store `conversations`, the tertiary index
`token_conversations` and the secondary index `hash_to_conversation`.
Wall-clock time (`time.time()`) is modelled by an explicit `now : Nat`
argument supplied by the caller. -/

/-- Translation of `ConversationContext`. -/
structure Ctx where
  conversation_id : String
  last_response_id : String
  created_at : Nat
  updated_at : Nat
  message_count : Nat
  token : String
  history_hash : String
  share_link_id : String
  deriving DecidableEq, Repr

/-- In-memory state of the `ConversationManager`. -/
structure MState where
  conversations : List (String × Ctx)
  token_conversations : List (String × List String)
  hash_to_conversation : List (String × String)
  deriving DecidableEq, Repr

def MState.initial : MState := ⟨[], [], []⟩

/-- Translation of `ConversationManager._limit_token_conversations`: when a
token holds more than `limit` conversation ids, pop the oldest ids from the
primary store and the hash index and keep the newest `limit` ids. -/
def limitTokenConversations (st : MState) (token : String) (limit : Nat) : MState :=
  let convIds := (alistGet st.token_conversations token).getD []
  if convIds.length ≤ limit then st
  else
    let toDelete := convIds.length - limit
    let st := (convIds.take toDelete).foldl
      (fun (st : MState) convId =>
        match alistGet st.conversations convId with
        | none => st
        | some ctx =>
            { st with
              conversations := alistPop st.conversations convId,
              hash_to_conversation :=
                if ctx.history_hash ≠ "" then alistPop st.hash_to_conversation ctx.history_hash
                else st.hash_to_conversation })
      st
    { st with token_conversations :=
        alistInsert st.token_conversations token (convIds.drop toDelete) }

/-- Translation of `ConversationManager.create_conversation` (the caller
supplies the generated or explicit `openai_conv_id`, the per-token cap
`limit` from config, and the current time `now`). -/
def createConversation (st : MState) (token grokConvId grokRespId : String)
    (messages : List Message) (shareLinkId openaiConvId : String)
    (limit : Nat) (now : Nat) : MState :=
  let historyHash := if messages ≠ [] then compute_history_hash messages else ""
  let ctx : Ctx :=
    { conversation_id := grokConvId
      last_response_id := grokRespId
      created_at := now
      updated_at := now
      message_count := 1
      token := token
      history_hash := historyHash
      share_link_id := shareLinkId }
  let st := { st with conversations := alistInsert st.conversations openaiConvId ctx }
  let st :=
    if historyHash ≠ "" then
      { st with hash_to_conversation :=
          alistInsert st.hash_to_conversation historyHash openaiConvId }
    else st
  let prev := (alistGet st.token_conversations token).getD []
  let st :=
    { st with token_conversations :=
        alistInsert st.token_conversations token (prev ++ [openaiConvId]) }
  limitTokenConversations st token limit

/-- Translation of `ConversationManager.update_conversation`. -/
def updateConversation (st : MState) (openaiConvId grokRespId : String)
    (messages : Option (List Message)) (shareLinkId : Option String)
    (grokConvId : Option String) (token : Option String)
    (incrementMessage : Bool) (now : Nat) : MState :=
  match alistGet st.conversations openaiConvId with
  | none => st
  | some ctx =>
      let ctx := { ctx with
        last_response_id := if grokRespId ≠ "" then grokRespId else ctx.last_response_id
        updated_at := now
        message_count := ctx.message_count + (if incrementMessage then 1 else 0) }
      let ctx := match shareLinkId with
        | some s => { ctx with share_link_id := s }
        | none => ctx
      let ctx := match grokConvId with
        | some g => { ctx with conversation_id := g }
        | none => ctx
      let ctx := match token with
        | some t => { ctx with token := t }
        | none => ctx
      match messages with
      | some ms =>
          if ms ≠ [] then
            let newHash := compute_history_hash ms
            if newHash ≠ "" ∧ newHash ≠ ctx.history_hash then
              let hmap :=
                if ctx.history_hash ≠ "" then alistPop st.hash_to_conversation ctx.history_hash
                else st.hash_to_conversation
              let ctx := { ctx with history_hash := newHash }
              { st with
                conversations := alistInsert st.conversations openaiConvId ctx,
                hash_to_conversation := alistInsert hmap newHash openaiConvId }
            else
              { st with conversations := alistInsert st.conversations openaiConvId ctx }
          else
            { st with conversations := alistInsert st.conversations openaiConvId ctx }
      | none =>
          { st with conversations := alistInsert st.conversations openaiConvId ctx }

/-- Translation of `ConversationManager.delete_conversation`. -/
def deleteConversation (st : MState) (openaiConvId : String) : MState :=
  match alistGet st.conversations openaiConvId with
  | none => st
  | some ctx =>
      let st := { st with conversations := alistPop st.conversations openaiConvId }
      let st :=
        if ctx.history_hash ≠ "" then
          { st with hash_to_conversation := alistPop st.hash_to_conversation ctx.history_hash }
        else st
      match alistGet st.token_conversations ctx.token with
      | none => st
      | some ids =>
          { st with token_conversations :=
              alistInsert st.token_conversations ctx.token (ids.erase openaiConvId) }

/-- Reachable manager states under the operations named by claim C7.  The
`create` step carries the freshness of the gateway id, which the orchestrator
guarantees by generating a uuid or by re-using an id only after its context
was found absent. -/
inductive MReach : MState → Prop where
  | init : MReach MState.initial
  | create (st : MState) (h : MReach st)
      (token gcid grid : String) (msgs : List Message) (share oid : String)
      (limit now : Nat) (fresh : alistGet st.conversations oid = none) :
      MReach (createConversation st token gcid grid msgs share oid limit now)
  | update (st : MState) (h : MReach st)
      (oid grid : String) (msgs : Option (List Message)) (share gcid tok : Option String)
      (inc : Bool) (now : Nat) :
      MReach (updateConversation st oid grid msgs share gcid tok inc now)
  | delete (st : MState) (h : MReach st) (oid : String) :
      MReach (deleteConversation st oid)
  | evict (st : MState) (h : MReach st) (token : String) (limit : Nat) :
      MReach (limitTokenConversations st token limit)

/-- Hash-index consistency: every entry of the secondary index has a non-empty
key and points at a stored context whose current `history_hash` is that key. -/
def HashIndexConsistent (st : MState) : Prop :=
  NodupKeys st.conversations ∧ NodupKeys st.hash_to_conversation ∧
  ∀ h cid, alistGet st.hash_to_conversation h = some cid →
    h ≠ "" ∧ ∃ ctx, alistGet st.conversations cid = some ctx ∧ ctx.history_hash = h

/-! ## Cross-token migration step (`chat.py`, `ChatService.completions`
lines 431-457).  When the selected token differs from the context's token and
the context holds a share link, the orchestrator calls `clone_share_link`;
on success it rebinds the context, on failure it detaches (the caller then
generates a fresh gateway id, modelled by the returned flag). -/

/-- Result of the migration step: the updated manager state and whether the
context was kept (`true`) or detached (`false`, new gateway id needed). -/
def migrateStep (st : MState) (openaiConvId : String) (ctx : Ctx) (newToken : String)
    (cloneResult : Option (String × String)) (now : Nat) : MState × Bool :=
  if ctx.share_link_id ≠ "" then
    match cloneResult with
    | some (newConvId, newRespId) =>
        if newConvId ≠ "" ∧ newRespId ≠ "" then
          (updateConversation st openaiConvId newRespId none (some ctx.share_link_id)
            (some newConvId) (some newToken) false now, true)
        else (st, false)
    | none => (st, false)
  else (st, false)

/-! ## Token bucket (`app/services/token/pool.py`, class `_TokenBucket`)

Randomness in `pick` (`random.choice`) is modelled by a list of random draws
`rands`; draw `i` selects item `rands[i] % len(items)` (missing draws default
to 0).  Theorems quantify over the draws. -/

/-- Translation of `_TokenBucket`: a list of items plus the item → position
index used for O(1) swap-remove. -/
structure TokenBucket where
  items : List String
  index : List (String × Nat)
  deriving DecidableEq, Repr

def TokenBucket.empty : TokenBucket := ⟨[], []⟩

/-- Translation of `_TokenBucket.add`: no-op when the token is already
present, otherwise record the position and append. -/
def TokenBucket.add (b : TokenBucket) (token : String) : TokenBucket :=
  if (alistGet b.index token).isSome then b
  else ⟨b.items ++ [token], alistInsert b.index token b.items.length⟩

/-- Translation of `_TokenBucket.remove`: pop the index entry, swap the last
item into the removed slot.  On a corrupt state with an indexed token but no
items (unreachable from the empty bucket) the items are left empty. -/
def TokenBucket.remove (b : TokenBucket) (token : String) : TokenBucket :=
  match alistGet b.index token with
  | none => b
  | some idx =>
      let index := alistPop b.index token
      match b.items.getLast? with
      | none => ⟨[], index⟩
      | some last =>
          let items := b.items.dropLast
          if idx < items.length then
            ⟨items.set idx last, alistInsert index last idx⟩
          else ⟨items, index⟩

/-- Translation of `_TokenBucket.pick`: empty bucket yields none; with an
empty exclude set return a random item; otherwise try `min 5 len` random
draws and fall back to a linear scan over non-excluded items. -/
def TokenBucket.pick (b : TokenBucket) (rands : List Nat) (exclude : List String) :
    Option String :=
  if b.items = [] then none
  else if exclude = [] then
    some (b.items.getD (rands.getD 0 0 % b.items.length) "")
  else
    let tries := min 5 b.items.length
    let candidates := (List.range tries).map
      (fun i => b.items.getD (rands.getD i 0 % b.items.length) "")
    match candidates.find? (fun c => c ∉ exclude) with
    | some c => some c
    | none => b.items.find? (fun t => t ∉ exclude)

/-- Operations of claim C10 on a bucket. -/
inductive BOp where
  | add (token : String)
  | remove (token : String)

def applyBOp (b : TokenBucket) : BOp → TokenBucket
  | .add t => b.add t
  | .remove t => b.remove t

def applyBOps (ops : List BOp) : TokenBucket :=
  ops.foldl applyBOp TokenBucket.empty

/-- Bucket well-formedness of claim C10: the index is the exact inverse of the
items list, and the two containers have equal size. -/
def BucketInv (b : TokenBucket) : Prop :=
  NodupKeys b.index ∧ b.index.length = b.items.length ∧
  ∀ t i, alistGet b.index t = some i ↔ b.items.get? i = some t

/-! ## Token pool (`app/services/token/pool.py`, class `TokenPool`)

`TokenStatus` and `TokenInfo` live in `app/services/token/models.py`, which is
not part of the provided sources.  Modelled from the spec: a token carries an
opaque `value`, an integer `quota` (−1 denotes unknown-but-available) and a
status in {ACTIVE, COOLING, DISABLED, EXPIRED}; only the three fields read by
`pool.py` are modelled. -/

inductive TokenStatus where
  | ACTIVE
  | COOLING
  | DISABLED
  | EXPIRED
  deriving DecidableEq, Repr

/-- Modelled from the spec: the token record fields used by `TokenPool`. -/
structure TokenInfo where
  token : String
  quota : Int
  status : TokenStatus
  deriving DecidableEq, Repr

/-- List-as-set insertion (Python `set.add`). -/
def setAdd (s : List Int) (x : Int) : List Int :=
  if x ∈ s then s else s ++ [x]

/-- List-as-set removal (Python `set.discard`). -/
def setDiscard (s : List Int) (x : Int) : List Int :=
  s.filter (fun y => y ≠ x)

/-- Translation of `TokenPool` state: the token dict, the quota → bucket
index and the set of non-empty quotas. -/
structure TokenPool where
  tokens : List (String × TokenInfo)
  quota_buckets : List (Int × TokenBucket)
  non_empty_quotas : List Int
  deriving DecidableEq, Repr

def TokenPool.empty : TokenPool := ⟨[], [], []⟩

/-- Translation of `TokenPool._index_add`: tokens that are not ACTIVE or have
`quota <= 0` are not indexed (note: this excludes `quota == -1`). -/
def TokenPool.indexAdd (p : TokenPool) (t : TokenInfo) : TokenPool :=
  if t.status ≠ TokenStatus.ACTIVE ∨ t.quota ≤ 0 then p
  else
    let bucket := (alistGet p.quota_buckets t.quota).getD TokenBucket.empty
    { p with
      quota_buckets := alistInsert p.quota_buckets t.quota (bucket.add t.token),
      non_empty_quotas := setAdd p.non_empty_quotas t.quota }

/-- Translation of `TokenPool._index_remove` (`if not bucket` is Python
truthiness: a missing or empty bucket is skipped). -/
def TokenPool.indexRemove (p : TokenPool) (tokenStr : String) (quota : Int)
    (status : TokenStatus) : TokenPool :=
  if status ≠ TokenStatus.ACTIVE ∨ quota ≤ 0 then p
  else
    match alistGet p.quota_buckets quota with
    | none => p
    | some bucket =>
        if bucket.items.length = 0 then p
        else
          let bucket := bucket.remove tokenStr
          { p with
            quota_buckets := alistInsert p.quota_buckets quota bucket,
            non_empty_quotas :=
              if bucket.items.length = 0 then setDiscard p.non_empty_quotas quota
              else p.non_empty_quotas }

/-- Translation of `TokenPool.update_index`. -/
def TokenPool.updateIndex (p : TokenPool) (t : TokenInfo) (oldQuota : Int)
    (oldStatus : TokenStatus) : TokenPool :=
  (p.indexRemove t.token oldQuota oldStatus).indexAdd t

/-- Translation of `TokenPool.add`. -/
def TokenPool.addToken (p : TokenPool) (t : TokenInfo) : TokenPool :=
  ({ p with tokens := alistInsert p.tokens t.token t }).indexAdd t

/-- Translation of `TokenPool.remove`. -/
def TokenPool.removeToken (p : TokenPool) (tokenStr : String) : TokenPool :=
  match alistGet p.tokens tokenStr with
  | none => p
  | some t =>
      let p := p.indexRemove tokenStr t.quota t.status
      { p with tokens := alistPop p.tokens tokenStr }

/-- Descending insertion sort on quotas (`sorted(..., reverse=True)`). -/
def insertDesc (x : Int) : List Int → List Int
  | [] => [x]
  | y :: ys => if x ≥ y then x :: y :: ys else y :: insertDesc x ys

def sortDesc (l : List Int) : List Int := l.foldr insertDesc []

/-- Translation of `TokenPool.select`: walk quotas in descending order, pick
from the bucket, re-fetch the token and re-check status and quota.  `rands`
supplies the random draws for each bucket. -/
def TokenPool.select (p : TokenPool) (rands : Int → List Nat) (exclude : List String) :
    Option TokenInfo :=
  if p.non_empty_quotas = [] then none
  else
    (sortDesc p.non_empty_quotas).findSome? (fun quota =>
      match alistGet p.quota_buckets quota with
      | none => none
      | some bucket =>
          if bucket.items.length = 0 then none
          else
            match bucket.pick (rands quota) exclude with
            | none => none
            | some tokenStr =>
                match alistGet p.tokens tokenStr with
                | none => none
                | some t =>
                    if t.status ≠ TokenStatus.ACTIVE ∨ t.quota ≤ 0 then none
                    else some t)

/-- Operations of claim C1 on a pool. -/
inductive POp where
  | add (t : TokenInfo)
  | remove (s : String)
  | update (t : TokenInfo) (oldQuota : Int) (oldStatus : TokenStatus)

def applyPOp (p : TokenPool) : POp → TokenPool
  | .add t => p.addToken t
  | .remove s => p.removeToken s
  | .update t q s => p.updateIndex t q s

def applyPOps (ops : List POp) : TokenPool :=
  ops.foldl applyPOp TokenPool.empty

/-! ## Upstream error classification (`app/services/grok/utils/retry.py`) and
the cross-token retry loop (`chat.py`, `ChatService.completions` lines
406-633).

`UpstreamException` lives in `app/core/exceptions.py`, which is not part of
the provided sources.  Modelled from the spec: `UpstreamError(status,
details)` carries a `status` and a details dict with optional `status`,
optional `error_code` (and body fields not needed here).  An absent or empty
details dict is falsy in Python and modelled as `none`. -/

/-- Details dict of an upstream error (only the keys read by the retry path;
a `some` field means the key is present with that value). -/
structure UpDetails where
  status : Option Int
  error_code : Option String
  deriving DecidableEq, Repr

/-- Modelled from the spec: `UpstreamError(status, details)`. -/
structure UpErr where
  status_code : Int
  details : Option UpDetails
  deriving DecidableEq, Repr

/-- Translation of `extract_status_code`: prefer the `status` key of a truthy
details dict, fall back to the exception's own `status_code`. -/
def extract_status_code (e : UpErr) : Int :=
  match e.details with
  | some d => match d.status with
      | some s => s
      | none => e.status_code
  | none => e.status_code

/-- Translation of `rate_limited`: status 429 or explicit
`rate_limit_exceeded` code. -/
def rate_limited (e : UpErr) : Bool :=
  decide (extract_status_code e = 429) ||
    (match e.details with
     | some d => decide (d.error_code = some "rate_limit_exceeded")
     | none => false)

/-- Oracle outcome of one loop attempt: token selection failed, the upstream
call succeeded, or it failed with an upstream error. -/
inductive AttemptOutcome where
  | noToken
  | success
  | fail (e : UpErr)

/-- Observable result of `ChatService.completions` as far as claim C3 is
concerned: success, the synthetic `AppException(status, code)` or a re-raised
upstream error. -/
inductive LoopResult where
  | ok
  | appError (status : Int) (code : String)
  | upstreamError (e : UpErr)
  deriving DecidableEq

/-- Translation of the retry loop of `ChatService.completions`: `fuel` counts
the remaining iterations of `range(max_token_retries)`, `outcomes i` is what
attempt `i` observes, and `lastError` mirrors the `last_error` variable.
A 429 / rate-limited failure and any failure whose (truthy) status is outside
{401, 403} continue the loop; other failures re-raise.  On exhaustion the
last error is re-raised when present, else the synthetic 429 is raised. -/
def completionsLoop (outcomes : Nat → AttemptOutcome) :
    Nat → Nat → Option UpErr → LoopResult
  | 0, _, lastError =>
      match lastError with
      | some e => .upstreamError e
      | none => .appError 429 "rate_limit_exceeded"
  | fuel + 1, attempt, lastError =>
      match outcomes attempt with
      | .noToken =>
          match lastError with
          | some e => .upstreamError e
          | none => .appError 429 "rate_limit_exceeded"
      | .success => .ok
      | .fail e =>
          if rate_limited e then completionsLoop outcomes fuel (attempt + 1) (some e)
          else
            let status := extract_status_code e
            if status ≠ 0 ∧ status ≠ 401 ∧ status ≠ 403 then
              completionsLoop outcomes fuel (attempt + 1) (some e)
            else .upstreamError e

/-- Entry point of the retry loop with `max_retry` attempts. -/
def chatCompletionsRetry (maxRetry : Nat) (outcomes : Nat → AttemptOutcome) : LoopResult :=
  completionsLoop outcomes maxRetry 0 none

/-! ## Three-tier stream timeout wrapper
(`app/services/grok/utils/process.py`, `_with_stream_timeouts` lines
122-209).

The upstream line stream is modelled as a list of (delay, item) events plus a
final delay before end-of-stream; time is exact integer arithmetic (a fixed
resolution such as milliseconds — the control flow only subtracts and
compares).  A wait bounded by `t` times out exactly when the production delay
exceeds `t`. -/

structure TimeoutCfg where
  first : ℤ
  idle : ℤ
  total : ℤ
  deriving DecidableEq, Repr

/-- Typed timeout errors (`StreamFirstTimeoutError`, `StreamIdleTimeoutError`,
`StreamTotalTimeoutError`), each carrying the configured seconds. -/
inductive StreamTimeout where
  | firstTimeout (s : ℤ)
  | idleTimeout (s : ℤ)
  | totalTimeout (s : ℤ)
  deriving DecidableEq, Repr

/-- Translation of one iteration head of `_with_stream_timeouts`: compute the
stage timeout (`first` on the first wait when positive, else `idle` when
positive, else disabled), cap it by the remaining total budget, and decide
whether a wait of `delay` times out and with which typed error.  The stage
value is disabled exactly when it is not positive, which mirrors
`stage_timeout is None`; a wait capped by the total budget raises the total
error, otherwise the first/idle error of the stage in force. -/
def waitStep (cfg : TimeoutCfg) (elapsed : ℤ) (isFirst : Bool) (delay : ℤ) :
    Option StreamTimeout :=
  let stageVal : ℤ := if isFirst ∧ cfg.first > 0 then cfg.first else cfg.idle
  let stageErr : StreamTimeout :=
    if isFirst ∧ cfg.first > 0 then .firstTimeout cfg.first else .idleTimeout cfg.idle
  if cfg.total > 0 ∧ cfg.total - elapsed ≤ 0 then some (.totalTimeout cfg.total)
  else if cfg.total > 0 then
    if stageVal ≤ 0 then
      if delay > cfg.total - elapsed then some (.totalTimeout cfg.total) else none
    else if cfg.total - elapsed < stageVal then
      if delay > cfg.total - elapsed then some (.totalTimeout cfg.total) else none
    else
      if delay > stageVal then some stageErr else none
  else
    if stageVal > 0 then
      if delay > stageVal then some stageErr else none
    else none

/-- Loop body of `_with_stream_timeouts` over the remaining events. -/
def withStreamTimeoutsGo {α : Type} (cfg : TimeoutCfg) (endDelay : ℤ) :
    List (ℤ × α) → ℤ → Bool → List α × Option StreamTimeout
  | [], elapsed, isFirst =>
      match waitStep cfg elapsed isFirst endDelay with
      | some e => ([], some e)
      | none => ([], none)
  | (d, a) :: rest, elapsed, isFirst =>
      match waitStep cfg elapsed isFirst d with
      | some e => ([], some e)
      | none =>
          let r := withStreamTimeoutsGo cfg endDelay rest (elapsed + d) false
          (a :: r.1, r.2)

/-- Translation of `_with_stream_timeouts`: all tiers disabled short-circuits
to plain iteration; otherwise run the supervised loop.  Returns the yielded
items and the typed timeout that ended the stream, if any. -/
def withStreamTimeouts {α : Type} (cfg : TimeoutCfg) (events : List (ℤ × α))
    (endDelay : ℤ) : List α × Option StreamTimeout :=
  if cfg.first ≤ 0 ∧ cfg.idle ≤ 0 ∧ cfg.total ≤ 0 then (events.map (fun p => p.2), none)
  else withStreamTimeoutsGo cfg endDelay events 0 true

/-- Translation of the timeout handlers of `StreamProcessor.process`
(`chat.py` lines 889-918): each typed stream timeout is re-raised as an
`UpstreamException` with status 504 and a type naming the tier. -/
def streamTimeoutToUpstream : StreamTimeout → Int × String
  | .firstTimeout _ => (504, "stream_first_timeout")
  | .totalTimeout _ => (504, "stream_total_timeout")
  | .idleTimeout _ => (504, "stream_idle_timeout")

/-! ## Stream processor (`chat.py`, class `StreamProcessor`)

Upstream lines are modelled post-parse: `InLine.unparsed` covers empty lines,
`[DONE]` markers and JSON parse failures (all skipped by `_normalize_line` /
`orjson.loads`), `InLine.parsed` carries the fields the processor reads.
Emitted SSE frames are modelled by `OutFrame`, one constructor per `_sse`
emission class of the source (role chunk, think markers, content chunk,
finish chunk, `[DONE]`).  The external text helpers `extract_tool_text`
(regex/JSON extraction, `chat.py` line 44) and
`DownloadService.render_image` are supplied as function parameters; every
theorem quantifies over them. -/

/-- Substring test: does `l` start with `pat`? -/
def listStarts : List Char → List Char → Bool
  | _, [] => true
  | [], _ :: _ => false
  | x :: xs, y :: ys => x = y && listStarts xs ys

/-- Index of the first occurrence of `pat` in `l` at or after position `i`
(Python `str.find`), as an absolute index. -/
def findSubAux (pat : List Char) : List Char → Nat → Option Nat
  | [], i => if pat = [] then some i else none
  | x :: xs, i =>
      if listStarts (x :: xs) pat then some i else findSubAux pat xs (i + 1)

/-- Python `s.find(pat)` (as `Option` instead of −1). -/
def strFind (s pat : String) : Option Nat :=
  findSubAux pat.data s.data 0

/-- Python `s.find(pat, start)`. -/
def strFindFrom (s pat : String) (start : Nat) : Option Nat :=
  (findSubAux pat.data (s.data.drop start) 0).map (fun i => i + start)

/-- Python slice `s[a:b]`. -/
def strSlice (s : String) (a b : Nat) : String :=
  String.mk ((s.data.drop a).take (b - a))

/-- Python slice `s[a:]`. -/
def strFrom (s : String) (a : Nat) : String :=
  String.mk (s.data.drop a)

/-- Python `s.endswith("\n")`. -/
def endsWithNewline (s : String) : Bool :=
  s.data.getLast? = some '\n'

def startTag : String := "<xai:tool_usage_card"
def endTag : String := "</xai:tool_usage_card>"

/-- Label-line append of `_filter_tool_card`: terminate the previous part
with a newline if needed, then append the label line with a trailing
newline. -/
def appendToolLine (parts : List String) (line : String) : List String :=
  let parts :=
    if parts ≠ [] ∧ ¬ endsWithNewline (parts.getLastD "") then
      parts.dropLast ++ [parts.getLastD "" ++ "\n"]
    else parts
  parts ++ [line ++ "\n"]

/-- Loop of `_filter_tool_card` over the remaining text.  `extractTool` stands
for `extract_tool_text(raw, rollout_id)`.  The fuel starts at one more than
the text length; every continuing iteration consumes at least the end-tag
length, so the fuel never runs out (the fuel-0 branch is unreachable). -/
def filterToolCardGo (extractTool : String → String) :
    Nat → Bool → String → String → List String → List String × Bool × String
  | 0, opened, buffer, _, parts => (parts, opened, buffer)
  | fuel + 1, opened, buffer, rest, parts =>
      if rest = "" then (parts, opened, buffer)
      else if opened then
        match strFind rest endTag with
        | none => (parts, true, buffer ++ rest)
        | some endIdx =>
            let endPos := endIdx + endTag.length
            let buffer := buffer ++ strSlice rest 0 endPos
            let line := extractTool buffer
            let parts := if line ≠ "" then appendToolLine parts line else parts
            filterToolCardGo extractTool fuel false "" (strFrom rest endPos) parts
      else
        match strFind rest startTag with
        | none => (parts ++ [rest], false, buffer)
        | some startIdx =>
            let parts := if startIdx > 0 then parts ++ [strSlice rest 0 startIdx] else parts
            match strFindFrom rest endTag startIdx with
            | none => (parts, true, strFrom rest startIdx)
            | some endIdx =>
                let endPos := endIdx + endTag.length
                let rawCard := strSlice rest startIdx endPos
                let line := extractTool rawCard
                let parts := if line ≠ "" then appendToolLine parts line else parts
                filterToolCardGo extractTool fuel opened buffer (strFrom rest endPos) parts

/-- Concatenation of the collected output parts (`"".join`). -/
def joinParts (parts : List String) : String :=
  parts.foldl (fun a b => a ++ b) ""

/-- Translation of `StreamProcessor._filter_tool_card`, returning the
filtered text and the updated (opened, buffer) tool state. -/
def filterToolCard (extractTool : String → String) (opened : Bool) (buffer : String)
    (token : String) : String × Bool × String :=
  let r := filterToolCardGo extractTool (token.length + 1) opened buffer token []
  (joinParts r.1, r.2.1, r.2.2)

/-- Configuration and external collaborators of the stream processor. -/
structure PEnv where
  showThink : Bool
  filterTags : List String
  extractTool : String → String → String
  render : String → String

/-- Python `"xai:tool_usage_card" in (self.filter_tags or [])`. -/
def PEnv.toolUsageEnabled (env : PEnv) : Bool :=
  "xai:tool_usage_card" ∈ env.filterTags

/-- Mutable processor state (`StreamProcessor.__init__`). -/
structure PState where
  responseId : String
  grokConversationId : String
  fingerprint : String
  rolloutId : String
  thinkOpened : Bool
  imageThinkActive : Bool
  roleSent : Bool
  toolOpened : Bool
  toolBuffer : String
  deriving DecidableEq, Repr

def PState.initial : PState :=
  { responseId := "", grokConversationId := "", fingerprint := "", rolloutId := ""
    thinkOpened := false, imageThinkActive := false, roleSent := false
    toolOpened := false, toolBuffer := "" }

/-- Translation of `StreamProcessor._filter_token`. -/
def filterToken (env : PEnv) (st : PState) (token : String) : String × PState :=
  if token = "" then (token, st)
  else
    let r :=
      if env.toolUsageEnabled then
        let r := filterToolCard (fun raw => env.extractTool raw st.rolloutId)
          st.toolOpened st.toolBuffer token
        (r.1, { st with toolOpened := r.2.1, toolBuffer := r.2.2 })
      else (token, st)
    if r.1 = "" then ("", r.2)
    else if env.filterTags = [] then r
    else if env.filterTags.any (fun tag =>
        tag ≠ "xai:tool_usage_card" ∧
          ((strFind r.1 ("<" ++ tag)).isSome ∨ (strFind r.1 ("</" ++ tag)).isSome)) then
      ("", r.2)
    else r

/-- Fields of one parsed upstream line under `result.response.modelResponse`.
`imageUrls` stands for the URLs `_collect_images` gathers from the object;
empty strings model absent/falsy string fields. -/
structure ModelResponse where
  responseId : String
  message : String
  imageUrls : List String
  metaModelHash : String
  deriving DecidableEq, Repr

/-- The `streamingImageGenerationResponse` object. -/
structure StreamingImageGen where
  imageIndex : Nat
  progress : Nat
  deriving DecidableEq, Repr

/-- Fields of one parsed upstream line under `result.response`.  `llmInfo`
is `some h` when the `llmInfo` dict is present with modelHash `h`;
`cardAttachment` is modelled post-JSON-parse as the optional
(title, original) image of its `jsonData`. -/
structure RespData where
  isThinking : Bool
  llmInfo : Option String
  responseId : String
  modelResponse : Option ModelResponse
  rolloutId : String
  streamingImageGen : Option StreamingImageGen
  cardAttachment : Option (Option (String × String))
  token : Option String
  deriving DecidableEq, Repr

/-- One parsed upstream line (`result.conversation.conversationId` plus
`result.response`). -/
structure LineData where
  conversationId : String
  resp : RespData
  deriving DecidableEq, Repr

/-- One raw upstream line after normalization and JSON parsing. -/
inductive InLine where
  | unparsed
  | parsed (d : LineData)
  deriving DecidableEq, Repr

/-- A line whose response object carries nothing of interest. -/
def RespData.empty : RespData :=
  { isThinking := false, llmInfo := none, responseId := "", modelResponse := none
    rolloutId := "", streamingImageGen := none, cardAttachment := none, token := none }

/-- Emitted SSE frames, one constructor per `_sse` emission class of
`StreamProcessor.process` (plus the terminal `[DONE]` frame). -/
inductive OutFrame where
  | role
  | thinkOpen
  | thinkClose (s : String)
  | content (s : String)
  | stop
  | done
  deriving DecidableEq, Repr

def isThinkOpenF : OutFrame → Bool
  | .thinkOpen => true
  | _ => false

def isThinkCloseF : OutFrame → Bool
  | .thinkClose _ => true
  | _ => false

def isRoleF : OutFrame → Bool
  | .role => true
  | _ => false

def isStopF : OutFrame → Bool
  | .stop => true
  | _ => false

def isDoneF : OutFrame → Bool
  | .done => true
  | _ => false

/-- Think-marker depth scan: starting from `k` open markers, scan the frames;
`none` marks a closer with no open marker, otherwise the resulting depth. -/
def thinkDepth : List OutFrame → Nat → Option Nat
  | [], k => some k
  | f :: fs, k =>
      match f with
      | .thinkOpen => thinkDepth fs (k + 1)
      | .thinkClose _ =>
          (match k with
           | 0 => none
           | k' + 1 => thinkDepth fs k')
      | _ => thinkDepth fs k

/-- Open-marker count carried by the processor state. -/
def PState.openFlag (st : PState) : Nat :=
  if st.thinkOpened then 1 else 0

/-- Whether a line parsed to JSON. -/
def isParsedB : InLine → Bool
  | .unparsed => false
  | .parsed _ => true

/-- Default processor environment used for concrete runs: thinking shown, no
filter tags, inert externals. -/
def PEnv.default : PEnv :=
  { showThink := true, filterTags := [], extractTool := fun _ _ => "",
    render := fun u => u }

/-- State capture at the top of the per-line loop body. -/
def captureFields (st : PState) (d : LineData) : PState :=
  let resp := d.resp
  let st :=
    match resp.llmInfo with
    | some mh => if st.fingerprint = "" then { st with fingerprint := mh } else st
    | none => st
  let st := if resp.responseId ≠ "" then { st with responseId := resp.responseId } else st
  let st :=
    match resp.modelResponse with
    | some mr => if mr.responseId ≠ "" then { st with responseId := mr.responseId } else st
    | none => st
  let st := if resp.rolloutId ≠ "" then { st with rolloutId := resp.rolloutId } else st
  let st :=
    if d.conversationId ≠ "" then { st with grokConversationId := d.conversationId } else st
  st

/-- Per-line body of `StreamProcessor.process`: returns the new state and the
frames emitted for this line. -/
def processLine (env : PEnv) (st : PState) (l : InLine) : PState × List OutFrame :=
  match l with
  | .unparsed => (st, [])
  | .parsed d =>
      let resp := d.resp
      let isThinking := resp.isThinking
      let st := captureFields st d
      let roleFrames : List OutFrame := if st.roleSent then [] else [.role]
      let st := { st with roleSent := true }
      match resp.streamingImageGen with
      | some img =>
          if ¬ env.showThink then (st, roleFrames)
          else
            let st := { st with imageThinkActive := true }
            let opens : List OutFrame := if st.thinkOpened then [] else [.thinkOpen]
            let st := { st with thinkOpened := true }
            let progressLine :=
              "正在生成第" ++ toString (img.imageIndex + 1) ++ "张图片中，当前进度" ++
                toString img.progress ++ "%\n"
            (st, roleFrames ++ opens ++ [.content progressLine])
      | none =>
      match resp.modelResponse with
      | some mr =>
          let closes : List OutFrame :=
            if st.imageThinkActive ∧ st.thinkOpened then [.thinkClose "\n</think>\n"] else []
          let st :=
            if st.imageThinkActive ∧ st.thinkOpened then { st with thinkOpened := false } else st
          let st := { st with imageThinkActive := false }
          let imgFrames : List OutFrame :=
            mr.imageUrls.map (fun url => .content (env.render url ++ "\n"))
          let st :=
            if mr.metaModelHash ≠ "" then { st with fingerprint := mr.metaModelHash } else st
          (st, roleFrames ++ closes ++ imgFrames)
      | none =>
      match resp.cardAttachment with
      | some cardImage =>
          match cardImage with
          | some (title, original) =>
              if original ≠ "" then
                let titleSafe := (title.replace "\n" " ").trim
                let md :=
                  if titleSafe ≠ "" then "![" ++ titleSafe ++ "](" ++ original ++ ")\n"
                  else "![image](" ++ original ++ ")\n"
                (st, roleFrames ++ [.content md])
              else (st, roleFrames)
          | none => (st, roleFrames)
      | none =>
      match resp.token with
      | none => (st, roleFrames)
      | some tok =>
          if tok = "" then (st, roleFrames)
          else
            let fr := filterToken env st tok
            let filtered := fr.1
            let st := fr.2
            if filtered = "" then (st, roleFrames)
            else
              let inThink := isThinking ∨ st.imageThinkActive
              if inThink then
                if ¬ env.showThink then (st, roleFrames)
                else
                  let opens : List OutFrame := if st.thinkOpened then [] else [.thinkOpen]
                  let st := { st with thinkOpened := true }
                  (st, roleFrames ++ opens ++ [.content filtered])
              else
                let closes : List OutFrame :=
                  if st.thinkOpened then [.thinkClose "\n</think>\n"] else []
                let st := { st with thinkOpened := false }
                (st, roleFrames ++ closes ++ [.content filtered])

/-- Fold of the per-line body over the whole input. -/
def processLines (env : PEnv) (st : PState) (frames : List OutFrame) :
    List InLine → PState × List OutFrame
  | [] => (st, frames)
  | l :: rest =>
      let r := processLine env st l
      processLines env r.1 (frames ++ r.2) rest

/-- Translation of `StreamProcessor.process` on a stream consumed to
completion: the per-line loop, the trailing think closer, the
`finish_reason:"stop"` chunk and the `[DONE]` frame. -/
def process (env : PEnv) (lines : List InLine) : List OutFrame :=
  let r := processLines env PState.initial [] lines
  r.2 ++ (if r.1.thinkOpened then [.thinkClose "</think>\n"] else []) ++
    [.stop, .done]

/-! ## Theorems -/

section AlistLemmas

variable {κ α : Type} [DecidableEq κ]

theorem alistGet_nil (k : κ) : alistGet ([] : List (κ × α)) k = none := rfl

theorem alistGet_cons (a : κ) (v : α) (l : List (κ × α)) (k : κ) :
    alistGet ((a, v) :: l) k = if a = k then some v else alistGet l k := by
  by_cases h : a = k <;> simp [alistGet, List.find?_cons, h]

theorem alistGet_append (l₁ l₂ : List (κ × α)) (k : κ) :
    alistGet (l₁ ++ l₂) k =
      match alistGet l₁ k with
      | some v => some v
      | none => alistGet l₂ k := by
  induction l₁ with
  | nil => simp [alistGet]
  | cons p l ih =>
      obtain ⟨a, v⟩ := p
      by_cases h : a = k <;> simp [alistGet_cons, h, ih]

theorem alistPop_cons (a : κ) (v : α) (l : List (κ × α)) (k : κ) :
    alistPop ((a, v) :: l) k =
      if a = k then alistPop l k else (a, v) :: alistPop l k := by
  by_cases h : a = k <;> simp [alistPop, h]

theorem alistGet_pop_self (l : List (κ × α)) (k : κ) :
    alistGet (alistPop l k) k = none := by
  induction l with
  | nil => rfl
  | cons p l ih =>
      obtain ⟨a, v⟩ := p
      by_cases h : a = k
      · simpa [alistPop_cons, h] using ih
      · simpa [alistPop_cons, h, alistGet_cons] using ih

theorem alistGet_pop_ne (l : List (κ × α)) (k k' : κ) (h : k' ≠ k) :
    alistGet (alistPop l k) k' = alistGet l k' := by
  induction l with
  | nil => rfl
  | cons p l ih =>
      obtain ⟨a, v⟩ := p
      by_cases ha : a = k
      · subst ha
        have hk : a ≠ k' := fun hc => h hc.symm
        simp [alistPop_cons, alistGet_cons, hk, ih]
      · by_cases ha' : a = k'
        · simp [alistPop_cons, ha, alistGet_cons, ha', h]
        · simp [alistPop_cons, ha, alistGet_cons, ha', ih]

theorem alistInsert_of_absent (l : List (κ × α)) (k : κ) (v : α)
    (h : alistGet l k = none) : alistInsert l k v = l ++ [(k, v)] := by
  have hf : l.find? (fun p => p.1 = k) = none := by
    cases hx : l.find? (fun p => p.1 = k) with
    | none => rfl
    | some p => simp [alistGet, hx] at h
  simp [alistInsert, hf]

theorem alistInsert_of_present (l : List (κ × α)) (k : κ) (v : α)
    (h : (alistGet l k).isSome) :
    alistInsert l k v = l.map (fun p => if p.1 = k then (k, v) else p) := by
  have hf : (l.find? (fun p => p.1 = k)).isSome := by
    cases hx : l.find? (fun p => p.1 = k) with
    | none => simp [alistGet, hx] at h
    | some p => simp
  simp [alistInsert, hf]

theorem alistGet_mapReplace_self (l : List (κ × α)) (k : κ) (v : α) :
    alistGet (l.map (fun p => if p.1 = k then (k, v) else p)) k =
      (alistGet l k).map (fun _ => v) := by
  induction l with
  | nil => rfl
  | cons p l ih =>
      obtain ⟨a, w⟩ := p
      by_cases ha : a = k
      · subst ha; simp [alistGet_cons]
      · simp [ha, alistGet_cons, ih]

theorem alistGet_mapReplace_ne (l : List (κ × α)) (k k' : κ) (v : α) (h : k' ≠ k) :
    alistGet (l.map (fun p => if p.1 = k then (k, v) else p)) k' = alistGet l k' := by
  induction l with
  | nil => rfl
  | cons p l ih =>
      obtain ⟨a, w⟩ := p
      by_cases ha : a = k
      · subst ha
        have hk : a ≠ k' := fun hc => h hc.symm
        simp [alistGet_cons, hk, ih]
      · by_cases ha' : a = k'
        · simp [ha, alistGet_cons, ha', h]
        · simp [ha, alistGet_cons, ha', ih]

theorem alistGet_insert_self (l : List (κ × α)) (k : κ) (v : α) :
    alistGet (alistInsert l k v) k = some v := by
  by_cases hs : (alistGet l k).isSome
  · rw [alistInsert_of_present l k v hs, alistGet_mapReplace_self]
    cases hx : alistGet l k with
    | none => simp [hx] at hs
    | some w => simp
  · have hnone : alistGet l k = none := by
      cases hx : alistGet l k with
      | none => rfl
      | some w => simp [hx] at hs
    rw [alistInsert_of_absent l k v hnone, alistGet_append, hnone]
    simp [alistGet_cons]

theorem alistGet_insert_ne (l : List (κ × α)) (k k' : κ) (v : α) (h : k' ≠ k) :
    alistGet (alistInsert l k v) k' = alistGet l k' := by
  by_cases hs : (alistGet l k).isSome
  · rw [alistInsert_of_present l k v hs, alistGet_mapReplace_ne l k k' v h]
  · have hnone : alistGet l k = none := by
      cases hx : alistGet l k with
      | none => rfl
      | some w => simp [hx] at hs
    rw [alistInsert_of_absent l k v hnone, alistGet_append]
    cases hx : alistGet l k' with
    | none => simp [hx, alistGet_cons, Ne.symm h, alistGet_nil]
    | some w => simp [hx]

theorem alistGet_eq_none_iff (l : List (κ × α)) (k : κ) :
    alistGet l k = none ↔ ∀ p ∈ l, p.1 ≠ k := by
  induction l with
  | nil => simp [alistGet]
  | cons p l ih =>
      obtain ⟨a, v⟩ := p
      by_cases h : a = k <;> simp [alistGet_cons, h, ih]

theorem alistPop_of_absent (l : List (κ × α)) (k : κ) (h : alistGet l k = none) :
    alistPop l k = l := by
  rw [alistGet_eq_none_iff] at h
  rw [alistPop, List.filter_eq_self]
  intro p hp
  simpa using h p hp

theorem nodupKeys_pop (l : List (κ × α)) (k : κ) (h : NodupKeys l) :
    NodupKeys (alistPop l k) := by
  unfold NodupKeys at h ⊢
  exact ((List.filter_sublist l).map (fun p => p.1)).nodup h

theorem nodupKeys_insert (l : List (κ × α)) (k : κ) (v : α) (h : NodupKeys l) :
    NodupKeys (alistInsert l k v) := by
  by_cases hs : (alistGet l k).isSome
  · rw [alistInsert_of_present l k v hs]
    have : (l.map (fun p => if p.1 = k then (k, v) else p)).map (fun p => p.1) =
        l.map (fun p => p.1) := by
      rw [List.map_map]
      refine List.map_congr_left (fun p _ => ?_)
      by_cases hp : p.1 = k <;> simp [hp]
    unfold NodupKeys
    rw [this]
    exact h
  · have hnone : alistGet l k = none := by
      cases hx : alistGet l k with
      | none => rfl
      | some w => simp [hx] at hs
    rw [alistInsert_of_absent l k v hnone]
    have hk : k ∉ l.map (fun p => p.1) := by
      rw [alistGet_eq_none_iff] at hnone
      intro hmem
      obtain ⟨p, hp, hpk⟩ := List.mem_map.1 hmem
      exact hnone p hp hpk
    unfold NodupKeys
    simp only [List.map_append, List.map_cons, List.map_nil]
    exact List.Nodup.append h (List.nodup_singleton k)
      (by simpa [List.disjoint_singleton] using hk)

theorem alistPop_length (l : List (κ × α)) (k : κ) (h : NodupKeys l)
    (hk : (alistGet l k).isSome) : (alistPop l k).length + 1 = l.length := by
  induction l with
  | nil => simp [alistGet] at hk
  | cons p l ih =>
      obtain ⟨a, v⟩ := p
      have hnd : NodupKeys l := by
        unfold NodupKeys at h ⊢
        simpa using h.of_cons
      by_cases ha : a = k
      · subst ha
        have habs : alistGet l a = none := by
          rw [alistGet_eq_none_iff]
          intro q hq hqa
          unfold NodupKeys at h
          simp only [List.map_cons, List.nodup_cons] at h
          exact h.1 (hqa ▸ List.mem_map_of_mem (fun p => p.1) hq)
        rw [alistPop_cons, if_pos rfl, alistPop_of_absent l a habs]
        simp
      · rw [alistPop_cons, if_neg ha]
        have hk' : (alistGet l k).isSome := by
          rw [alistGet_cons, if_neg ha] at hk
          exact hk
        simpa using ih hnd hk'

theorem alistInsert_length_present (l : List (κ × α)) (k : κ) (v : α)
    (hk : (alistGet l k).isSome) : (alistInsert l k v).length = l.length := by
  rw [alistInsert_of_present l k v hk, List.length_map]

theorem alistInsert_length_absent (l : List (κ × α)) (k : κ) (v : α)
    (hk : alistGet l k = none) : (alistInsert l k v).length = l.length + 1 := by
  rw [alistInsert_of_absent l k v hk]
  simp

end AlistLemmas

/-- Characterization of the message scan for any starting accumulator. -/
theorem historyScan_foldl (msgs : List Message) :
    ∀ (a b : List String) (fl : Bool),
      List.foldl historyStep (a, b, fl) msgs =
        (a ++ sysLines msgs, b ++ userLines msgs, (fl || hasAssistantB msgs)) := by
  induction msgs with
  | nil => intro a b fl; simp [sysLines, userLines, hasAssistantB]
  | cons m ms ih =>
      intro a b fl
      simp only [List.foldl_cons]
      by_cases h1 : m.role = "system"
      · simp [historyStep, h1, ih, sysLines, userLines, hasAssistantB]
      · by_cases h2 : m.role = "user"
        · simp [historyStep, h1, h2, ih, sysLines, userLines, hasAssistantB]
        · by_cases h3 : m.role = "assistant"
          · simp [historyStep, h1, h2, h3, ih, sysLines, userLines, hasAssistantB]
          · simp [historyStep, h1, h2, h3, ih, sysLines, userLines, hasAssistantB]

/-- The scan yields the grouped system lines, user lines and assistant flag. -/
theorem historyScan_eq (msgs : List Message) :
    historyScan msgs = (sysLines msgs, userLines msgs, hasAssistantB msgs) := by
  simpa [historyScan] using historyScan_foldl msgs [] [] false

/-- Any item selected by a valid random draw is a member. -/
theorem getD_mod_mem (l : List String) (r : Nat) (h : l ≠ []) :
    l.getD (r % l.length) "" ∈ l := by
  have hpos : 0 < l.length := List.length_pos.2 h
  have hlt : r % l.length < l.length := Nat.mod_lt _ hpos
  rw [List.getD_eq_getElem l "" hlt]
  exact List.getElem_mem hlt

/-- A successful `_TokenBucket.pick` returns a stored item outside the
exclude set (for any bucket state and any random draws). -/
theorem bucket_pick_sound (b : TokenBucket) (rs : List Nat) (ex : List String)
    (t : String) (h : b.pick rs ex = some t) : t ∈ b.items ∧ t ∉ ex := by
  unfold TokenBucket.pick at h
  by_cases h1 : b.items = []
  · simp [h1] at h
  · rw [if_neg h1] at h
    by_cases h2 : ex = []
    · rw [if_pos h2] at h
      have ht : b.items.getD (rs.getD 0 0 % b.items.length) "" = t := by
        injection h
      subst ht
      exact ⟨getD_mod_mem b.items (rs.getD 0 0) h1, by simp [h2]⟩
    · rw [if_neg h2] at h
      simp only at h
      cases hf : (((List.range (min 5 b.items.length)).map
          (fun i => b.items.getD (rs.getD i 0 % b.items.length) "")).find?
            (fun c => c ∉ ex)) with
      | some c =>
          rw [hf] at h
          have hct : c = t := by injection h
          subst hct
          refine ⟨?_, by simpa using List.find?_some hf⟩
          have hmem := List.mem_of_find?_eq_some hf
          obtain ⟨i, _, hi⟩ := List.mem_map.1 hmem
          rw [← hi]
          exact getD_mod_mem b.items (rs.getD i 0) h1
      | none =>
          rw [hf] at h
          exact ⟨List.mem_of_find?_eq_some h, by simpa using List.find?_some h⟩

/-- Removing an unindexed token leaves the bucket unchanged. -/
theorem bucket_remove_absent (b : TokenBucket) (t : String)
    (h : alistGet b.index t = none) : b.remove t = b := by
  simp [TokenBucket.remove, h]

/-- Adding an indexed token leaves the bucket unchanged. -/
theorem bucket_add_present (b : TokenBucket) (t : String)
    (h : (alistGet b.index t).isSome) : b.add t = b := by
  simp [TokenBucket.add, h]

theorem bucketInv_empty : BucketInv TokenBucket.empty := by
  refine ⟨by simp [NodupKeys, TokenBucket.empty], by simp [TokenBucket.empty], ?_⟩
  intro t i
  simp [TokenBucket.empty, alistGet]

/-- Index/items injectivity extracted from the invariant. -/
theorem bucketInv_items_inj (b : TokenBucket) (h : BucketInv b) (i j : Nat) (t : String)
    (hi : b.items.get? i = some t) (hj : b.items.get? j = some t) : i = j := by
  have h1 := (h.2.2 t i).2 hi
  have h2 := (h.2.2 t j).2 hj
  rw [h1] at h2
  injection h2

/-- `_TokenBucket.add` preserves the invariant. -/
theorem bucketInv_add (b : TokenBucket) (h : BucketInv b) (t : String) :
    BucketInv (b.add t) := by
  unfold TokenBucket.add
  by_cases hp : (alistGet b.index t).isSome
  · simpa [hp] using h
  · have habs : alistGet b.index t = none := by
      cases hx : alistGet b.index t with
      | none => rfl
      | some w => simp [hx] at hp
    rw [if_neg hp]
    obtain ⟨hnd, hlen, hiff⟩ := h
    refine ⟨nodupKeys_insert _ _ _ hnd, ?_, ?_⟩
    · simp only
      rw [alistInsert_length_absent _ _ _ habs, hlen]
      simp
    · intro t' i
      simp only
      rw [alistInsert_of_absent _ _ _ habs, alistGet_append]
      by_cases ht' : t' = t
      · subst ht'
        rw [habs]
        simp only [alistGet_cons, if_pos rfl, alistGet_nil]
        constructor
        · intro hs
          have : b.items.length = i := by injection hs
          subst this
          exact List.get?_concat_length b.items t'
        · intro hs
          by_cases hlt : i < b.items.length
          · rw [List.get?_append hlt] at hs
            have := (hiff t' i).2 hs
            rw [habs] at this
            cases this
          · by_cases heq : i = b.items.length
            · subst heq; rfl
            · have : b.items.length + 1 ≤ i := by omega
              rw [List.get?_eq_none.2 (by simpa using this)] at hs
              cases hs
      · have htt' : ¬ t = t' := fun hc => ht' hc.symm
        cases hx : alistGet b.index t' with
        | none =>
            simp only [alistGet_cons, if_neg htt', alistGet_nil]
            constructor
            · intro hs; cases hs
            · intro hs
              by_cases hlt : i < b.items.length
              · rw [List.get?_append hlt] at hs
                have := (hiff t' i).2 hs
                rw [hx] at this
                cases this
              · by_cases heq : i = b.items.length
                · subst heq
                  rw [List.get?_concat_length] at hs
                  have : t = t' := by injection hs
                  exact absurd this.symm ht'
                · have : b.items.length + 1 ≤ i := by omega
                  rw [List.get?_eq_none.2 (by simpa using this)] at hs
                  cases hs
        | some j =>
            simp only
            have hj := (hiff t' j).1 hx
            have hjlt : j < b.items.length := by
              by_contra hc
              rw [List.get?_eq_none.2 (by omega)] at hj
              cases hj
            constructor
            · intro hs
              have : j = i := by injection hs
              subst this
              rw [List.get?_append hjlt]
              exact hj
            · intro hs
              by_cases hlt : i < b.items.length
              · rw [List.get?_append hlt] at hs
                have := (hiff t' i).2 hs
                rw [hx] at this
                injection this with hji
                exact congrArg some hji.symm ▸ rfl
              · by_cases heq : i = b.items.length
                · subst heq
                  rw [List.get?_concat_length] at hs
                  have : t = t' := by injection hs
                  exact absurd this.symm ht'
                · have : b.items.length + 1 ≤ i := by omega
                  rw [List.get?_eq_none.2 (by simpa using this)] at hs
                  cases hs

/-- Membership at an index implies the index is in range. -/
theorem lt_of_get?_eq_some {β : Type} (l : List β) (i : Nat) (x : β)
    (hx : l.get? i = some x) : i < l.length := by
  by_contra hc
  rw [List.get?_eq_none.2 (by omega)] at hx
  cases hx

/-- `_TokenBucket.remove` preserves the invariant. -/
theorem bucketInv_remove (b : TokenBucket) (h : BucketInv b) (t : String) :
    BucketInv (b.remove t) := by
  obtain ⟨hnd, hlen, hiff⟩ := h
  cases hidx : alistGet b.index t with
  | none =>
      rw [bucket_remove_absent b t hidx]
      exact ⟨hnd, hlen, hiff⟩
  | some idx =>
      have ht_items : b.items.get? idx = some t := (hiff t idx).1 hidx
      have hidxlt : idx < b.items.length := lt_of_get?_eq_some _ _ _ ht_items
      cases hlast : b.items.getLast? with
      | none =>
          rw [List.getLast?_eq_none.1 hlast] at hidxlt
          simp at hidxlt
      | some last =>
          have hsplit : b.items.dropLast ++ [last] = b.items :=
            List.dropLast_append_getLast? last hlast
          have hm : b.items.dropLast.length = b.items.length - 1 :=
            List.length_dropLast b.items
          have hn : b.items.length = b.items.dropLast.length + 1 := by
            conv_lhs => rw [← hsplit]
            simp
          have hget_m : b.items.get? b.items.dropLast.length = some last := by
            have hc := List.get?_concat_length b.items.dropLast last
            rwa [hsplit] at hc
          have hidx_last : alistGet b.index last = some b.items.dropLast.length :=
            (hiff last _).2 hget_m
          have hget_lt : ∀ i, i < b.items.dropLast.length →
              b.items.get? i = b.items.dropLast.get? i := by
            intro i hi
            conv_lhs => rw [← hsplit]
            exact List.get?_append hi
          by_cases hcase : idx < b.items.dropLast.length
          · -- swap branch: the last item moves into the freed slot
            have htl : t ≠ last := by
              intro hc
              rw [hc, hidx_last] at hidx
              injection hidx with hji
              omega
            have hpoplen : (alistPop b.index t).length + 1 = b.index.length :=
              alistPop_length _ _ hnd (by simp [hidx])
            have hpop_last : alistGet (alistPop b.index t) last = alistGet b.index last :=
              alistGet_pop_ne _ _ _ (fun hc => htl hc.symm)
            have hcaseL : idx < b.items.length - 1 := by omega
            have hdef : b.remove t =
                ⟨b.items.dropLast.set idx last, alistInsert (alistPop b.index t) last idx⟩ := by
              simp [TokenBucket.remove, hidx, hlast, hcaseL]
            rw [hdef]
            refine ⟨nodupKeys_insert _ _ _ (nodupKeys_pop _ _ hnd), ?_, ?_⟩
            · simp only
              rw [alistInsert_length_present _ _ _ (by simp [hpop_last, hidx_last])]
              rw [List.length_set]
              omega
            · intro t' i
              simp only
              by_cases h1 : t' = last
              · subst h1
                rw [alistGet_insert_self]
                constructor
                · intro hs
                  have : idx = i := by injection hs
                  subst this
                  rw [List.get?_set_eq_of_lt _ hcase]
                · intro hs
                  by_cases hii : i = idx
                  · subst hii; rfl
                  · rw [List.get?_set_ne _ _ (fun hc => hii hc.symm)] at hs
                    have hilt : i < b.items.dropLast.length := lt_of_get?_eq_some _ _ _ hs
                    rw [← hget_lt i hilt] at hs
                    have := (hiff t' i).2 hs
                    rw [hidx_last] at this
                    injection this with hji
                    omega
              · have h1' : ¬ t' = last := h1
                rw [alistGet_insert_ne _ _ _ _ h1']
                by_cases h2 : t' = t
                · subst h2
                  rw [alistGet_pop_self]
                  constructor
                  · intro hs; cases hs
                  · intro hs
                    by_cases hii : i = idx
                    · subst hii
                      rw [List.get?_set_eq_of_lt _ hcase] at hs
                      have : last = t' := by injection hs
                      exact absurd this.symm h1
                    · rw [List.get?_set_ne _ _ (fun hc => hii hc.symm)] at hs
                      have hilt : i < b.items.dropLast.length := lt_of_get?_eq_some _ _ _ hs
                      rw [← hget_lt i hilt] at hs
                      have := (hiff t' i).2 hs
                      rw [hidx] at this
                      injection this with hji
                      exact absurd hji.symm hii
                · rw [alistGet_pop_ne _ _ _ h2]
                  constructor
                  · intro hs
                    have hit : b.items.get? i = some t' := (hiff t' i).1 hs
                    have hilt : i < b.items.length := lt_of_get?_eq_some _ _ _ hit
                    have hii : i ≠ idx := by
                      intro hc
                      rw [hc, ht_items] at hit
                      have : t = t' := by injection hit
                      exact h2 this.symm
                    have him : i ≠ b.items.dropLast.length := by
                      intro hc
                      rw [hc, hget_m] at hit
                      have : last = t' := by injection hit
                      exact h1 this.symm
                    have hilt' : i < b.items.dropLast.length := by omega
                    rw [List.get?_set_ne _ _ (fun hc => hii hc.symm), ← hget_lt i hilt']
                    exact hit
                  · intro hs
                    by_cases hii : i = idx
                    · subst hii
                      rw [List.get?_set_eq_of_lt _ hcase] at hs
                      have : last = t' := by injection hs
                      exact absurd this.symm h1
                    · rw [List.get?_set_ne _ _ (fun hc => hii hc.symm)] at hs
                      have hilt : i < b.items.dropLast.length := lt_of_get?_eq_some _ _ _ hs
                      rw [← hget_lt i hilt] at hs
                      exact (hiff t' i).2 hs
          · -- the removed token is the last item
            have hie : idx = b.items.dropLast.length := by omega
            have htl : t = last := by
              rw [hie, hget_m] at ht_items
              injection ht_items with hji
              exact hji.symm
            have hpoplen : (alistPop b.index t).length + 1 = b.index.length :=
              alistPop_length _ _ hnd (by simp [hidx])
            have hcaseL : ¬ idx < b.items.length - 1 := by omega
            have hdef : b.remove t = ⟨b.items.dropLast, alistPop b.index t⟩ := by
              simp [TokenBucket.remove, hidx, hlast, hcaseL]
            rw [hdef]
            refine ⟨nodupKeys_pop _ _ hnd, by simp only; omega, ?_⟩
            intro t' i
            simp only
            by_cases h2 : t' = t
            · subst h2
              rw [alistGet_pop_self]
              constructor
              · intro hs; cases hs
              · intro hs
                have hilt : i < b.items.dropLast.length := lt_of_get?_eq_some _ _ _ hs
                rw [← hget_lt i hilt] at hs
                have := (hiff t' i).2 hs
                rw [hidx] at this
                injection this with hji
                omega
            · rw [alistGet_pop_ne _ _ _ h2]
              constructor
              · intro hs
                have hit : b.items.get? i = some t' := (hiff t' i).1 hs
                have hilt : i < b.items.length := lt_of_get?_eq_some _ _ _ hit
                have him : i ≠ b.items.dropLast.length := by
                  intro hc
                  rw [hc, hget_m] at hit
                  have : last = t' := by injection hit
                  rw [← htl] at this
                  exact h2 this.symm
                have hilt' : i < b.items.dropLast.length := by omega
                rw [← hget_lt i hilt']
                exact hit
              · intro hs
                have hilt : i < b.items.dropLast.length := lt_of_get?_eq_some _ _ _ hs
                rw [← hget_lt i hilt] at hs
                exact (hiff t' i).2 hs

/-- Every bucket reachable from the empty bucket satisfies the invariant. -/
theorem bucketInv_foldl (ops : List BOp) :
    ∀ b : TokenBucket, BucketInv b → BucketInv (ops.foldl applyBOp b) := by
  induction ops with
  | nil => intro b hb; exact hb
  | cons op rest ih =>
      intro b hb
      refine ih (applyBOp b op) ?_
      cases op with
      | add t => exact bucketInv_add b hb t
      | remove t => exact bucketInv_remove b hb t

/-- C10: after any sequence of add/remove operations on a `_TokenBucket`, the
index is the exact inverse of the items list (so tokens are unique and
`len(index) == len(items)`), `pick(exclude)` returns none or a stored token
outside the exclude set, and removing an absent token or adding a present
token leaves the bucket unchanged. -/
theorem C10_token_bucket_invariant (ops : List BOp) :
    BucketInv (applyBOps ops) ∧
    (∀ (rs : List Nat) (ex : List String) (t : String),
      (applyBOps ops).pick rs ex = some t → t ∈ (applyBOps ops).items ∧ t ∉ ex) ∧
    (∀ t, alistGet (applyBOps ops).index t = none →
      (applyBOps ops).remove t = applyBOps ops) ∧
    (∀ t, (alistGet (applyBOps ops).index t).isSome →
      (applyBOps ops).add t = applyBOps ops) :=
  ⟨bucketInv_foldl ops TokenBucket.empty bucketInv_empty,
   fun rs ex t h => bucket_pick_sound _ rs ex t h,
   fun t h => bucket_remove_absent _ t h,
   fun t h => bucket_add_present _ t h⟩

/-- C10 witness: on the bucket {a, b} with exclude {a} and random draw 0,
pick returns b, which is stored and not excluded; removing the absent c and
re-adding the present a are no-ops. -/
theorem C10_token_bucket_invariant_witness :
    ((applyBOps [BOp.add "a", BOp.add "b"]).pick [0] ["a"] = some "b" ∧
      "b" ∈ (applyBOps [BOp.add "a", BOp.add "b"]).items ∧ "b" ∉ ["a"]) ∧
    (applyBOps [BOp.add "a", BOp.add "b"]).remove "c" = applyBOps [BOp.add "a", BOp.add "b"] ∧
    (applyBOps [BOp.add "a", BOp.add "b"]).add "a" = applyBOps [BOp.add "a", BOp.add "b"] :=
  ⟨⟨by decide,
    (C10_token_bucket_invariant [BOp.add "a", BOp.add "b"]).2.1 [0] ["a"] "b" (by decide)⟩,
   (C10_token_bucket_invariant [BOp.add "a", BOp.add "b"]).2.2.1 "c" (by decide),
   (C10_token_bucket_invariant [BOp.add "a", BOp.add "b"]).2.2.2 "a" (by decide)⟩

/-- Key consistency of the token dict: `add` stores each token under its own
value, so every stored entry satisfies `tokens[s].token = s`. -/
def PoolTokensConsistent (p : TokenPool) : Prop :=
  ∀ s t, alistGet p.tokens s = some t → t.token = s

theorem poolTokensConsistent_empty : PoolTokensConsistent TokenPool.empty := by
  intro s t h
  simp [TokenPool.empty, alistGet] at h

theorem indexAdd_tokens (p : TokenPool) (t : TokenInfo) :
    (p.indexAdd t).tokens = p.tokens := by
  unfold TokenPool.indexAdd
  split <;> rfl

theorem indexRemove_tokens (p : TokenPool) (ts : String) (q : Int) (st : TokenStatus) :
    (p.indexRemove ts q st).tokens = p.tokens := by
  unfold TokenPool.indexRemove
  split
  · rfl
  · split
    · rfl
    · split <;> rfl

theorem poolTokensConsistent_indexAdd (p : TokenPool) (h : PoolTokensConsistent p)
    (t : TokenInfo) : PoolTokensConsistent (p.indexAdd t) := by
  intro s u hs
  rw [indexAdd_tokens] at hs
  exact h s u hs

theorem poolTokensConsistent_indexRemove (p : TokenPool) (h : PoolTokensConsistent p)
    (ts : String) (q : Int) (st : TokenStatus) :
    PoolTokensConsistent (p.indexRemove ts q st) := by
  intro s u hs
  rw [indexRemove_tokens] at hs
  exact h s u hs

theorem poolTokensConsistent_applyPOp (p : TokenPool) (h : PoolTokensConsistent p)
    (op : POp) : PoolTokensConsistent (applyPOp p op) := by
  cases op with
  | add t =>
      refine poolTokensConsistent_indexAdd _ ?_ t
      intro s u hs
      simp only at hs
      by_cases hkey : t.token = s
      · subst hkey
        rw [alistGet_insert_self] at hs
        injection hs with hu
        rw [← hu]
      · rw [alistGet_insert_ne _ _ _ _ (fun hc => hkey hc.symm)] at hs
        exact h s u hs
  | remove s' =>
      have hred : applyPOp p (POp.remove s') = p.removeToken s' := rfl
      rw [hred]
      unfold TokenPool.removeToken
      cases hx : alistGet p.tokens s' with
      | none => exact h
      | some t =>
          intro s u hs
          dsimp only at hs
          by_cases hss : s = s'
          · subst hss
            rw [indexRemove_tokens, alistGet_pop_self] at hs
            cases hs
          · rw [indexRemove_tokens, alistGet_pop_ne _ _ _ hss] at hs
            exact h s u hs
  | update t q st =>
      exact poolTokensConsistent_indexAdd _
        (poolTokensConsistent_indexRemove _ h t.token q st) t

theorem poolTokensConsistent_applyPOps (ops : List POp) :
    PoolTokensConsistent (applyPOps ops) := by
  unfold applyPOps
  have hgen : ∀ (l : List POp) (p : TokenPool), PoolTokensConsistent p →
      PoolTokensConsistent (l.foldl applyPOp p) := by
    intro l
    induction l with
    | nil => intro p hp; exact hp
    | cons op rest ih => intro p hp; exact ih _ (poolTokensConsistent_applyPOp p hp op)
  exact hgen ops TokenPool.empty poolTokensConsistent_empty

/-- Soundness of `TokenPool.select` on any key-consistent pool: a returned
token is ACTIVE, has positive quota (the code re-checks both), and its value
is outside the exclude set. -/
theorem select_sound (p : TokenPool) (hp : PoolTokensConsistent p)
    (rands : Int → List Nat) (ex : List String) (t : TokenInfo)
    (h : p.select rands ex = some t) :
    t.status = TokenStatus.ACTIVE ∧ t.quota > 0 ∧ t.token ∉ ex := by
  unfold TokenPool.select at h
  by_cases hq : p.non_empty_quotas = []
  · rw [if_pos hq] at h; cases h
  · rw [if_neg hq] at h
    obtain ⟨quota, _, hf⟩ := List.exists_of_findSome?_eq_some h
    cases hb : alistGet p.quota_buckets quota with
    | none => rw [hb] at hf; dsimp only at hf; cases hf
    | some bucket =>
        rw [hb] at hf
        dsimp only at hf
        by_cases hl : bucket.items.length = 0
        · rw [if_pos hl] at hf; cases hf
        · rw [if_neg hl] at hf
          cases hpick : bucket.pick (rands quota) ex with
          | none => rw [hpick] at hf; dsimp only at hf; cases hf
          | some ts =>
              rw [hpick] at hf
              dsimp only at hf
              cases hg : alistGet p.tokens ts with
              | none => rw [hg] at hf; dsimp only at hf; cases hf
              | some u =>
                  rw [hg] at hf
                  dsimp only at hf
                  by_cases hchk : u.status ≠ TokenStatus.ACTIVE ∨ u.quota ≤ 0
                  · rw [if_pos hchk] at hf; cases hf
                  · rw [if_neg hchk] at hf
                    have hut : u = t := by injection hf
                    subst hut
                    push_neg at hchk
                    refine ⟨hchk.1, by omega, ?_⟩
                    rw [hp ts u hg]
                    exact (bucket_pick_sound bucket (rands quota) ex ts hpick).2

/-- C1 (amended): in every pool state reachable by add, remove and
update_index, `select(exclude)` returns none or a token that is ACTIVE with
`quota > 0` and outside the exclude set; ACTIVE tokens with `quota == -1` are
never indexed, so a pool whose only ACTIVE token has `quota == -1` returns
none. -/
theorem C1_select_correct :
    (∀ (ops : List POp) (rands : Int → List Nat) (ex : List String) (t : TokenInfo),
      (applyPOps ops).select rands ex = some t →
        t.status = TokenStatus.ACTIVE ∧ t.quota > 0 ∧ t.token ∉ ex) ∧
    (∀ (rands : Int → List Nat) (ex : List String),
      (TokenPool.empty.addToken ⟨"t1", -1, TokenStatus.ACTIVE⟩).select rands ex = none) := by
  constructor
  · intro ops rands ex t h
    exact select_sound _ (poolTokensConsistent_applyPOps ops) rands ex t h
  · intro rands ex
    rfl

/-- C1 witness: in the pool {t1 ACTIVE quota 5}, select returns t1, which is
ACTIVE with positive quota and not excluded. -/
theorem C1_select_correct_witness :
    (applyPOps [POp.add ⟨"t1", 5, TokenStatus.ACTIVE⟩]).select (fun _ => [0]) [] =
        some ⟨"t1", 5, TokenStatus.ACTIVE⟩ ∧
    TokenStatus.ACTIVE = TokenStatus.ACTIVE ∧ (5 : Int) > 0 ∧ "t1" ∉ ([] : List String) :=
  ⟨by decide,
   C1_select_correct.1 [POp.add ⟨"t1", 5, TokenStatus.ACTIVE⟩] (fun _ => [0]) []
     ⟨"t1", 5, TokenStatus.ACTIVE⟩ (by decide)⟩

/-- C1 counterexample: the pool whose only token is ACTIVE with quota −1
returns none from select — `_index_add` skips `quota <= 0`, so the claim's
"quota −1 tokens are in the candidate set" is false on the code. -/
theorem C1_counterexample :
    (TokenPool.empty.addToken ⟨"t1", -1, TokenStatus.ACTIVE⟩).select (fun _ => []) [] =
      none := by
  rfl

/-- Exhaustion with no token on the current attempt and no recorded failure
raises the synthetic 429. -/
theorem completionsLoop_noToken (outcomes : Nat → AttemptOutcome)
    (h : ∀ i, outcomes i = AttemptOutcome.noToken) :
    ∀ (fuel attempt : Nat),
      completionsLoop outcomes fuel attempt none =
        LoopResult.appError 429 "rate_limit_exceeded" := by
  intro fuel attempt
  cases fuel with
  | zero => rfl
  | succ n => simp [completionsLoop, h attempt]

/-- Any synthetic `AppException` produced by the loop is the 429
`rate_limit_exceeded` one. -/
theorem completionsLoop_appError (outcomes : Nat → AttemptOutcome) :
    ∀ (fuel attempt : Nat) (lastErr : Option UpErr) (s : Int) (c : String),
      completionsLoop outcomes fuel attempt lastErr = LoopResult.appError s c →
        s = 429 ∧ c = "rate_limit_exceeded" := by
  intro fuel
  induction fuel with
  | zero =>
      intro attempt lastErr s c h
      cases lastErr with
      | none =>
          simp only [completionsLoop] at h
          cases h
          exact ⟨rfl, rfl⟩
      | some e => simp [completionsLoop] at h
  | succ n ih =>
      intro attempt lastErr s c h
      simp only [completionsLoop] at h
      cases hout : outcomes attempt with
      | noToken =>
          rw [hout] at h
          cases lastErr with
          | none => dsimp only at h; cases h; exact ⟨rfl, rfl⟩
          | some e => dsimp only at h; cases h
      | success => rw [hout] at h; cases h
      | fail e =>
          rw [hout] at h
          dsimp only at h
          by_cases hrl : rate_limited e
          · rw [if_pos hrl] at h
            exact ih (attempt + 1) (some e) s c h
          · rw [if_neg hrl] at h
            by_cases hst : extract_status_code e ≠ 0 ∧
                extract_status_code e ≠ 401 ∧ extract_status_code e ≠ 403
            · rw [if_pos hst] at h
              exact ih (attempt + 1) (some e) s c h
            · rw [if_neg hst] at h
              cases h

/-- Any upstream error the loop raises was recorded on some attempt it
consumed (or was the incoming last error). -/
theorem completionsLoop_upstreamError (outcomes : Nat → AttemptOutcome) :
    ∀ (fuel attempt : Nat) (lastErr : Option UpErr) (e : UpErr),
      completionsLoop outcomes fuel attempt lastErr = LoopResult.upstreamError e →
        lastErr = some e ∨
          ∃ i, attempt ≤ i ∧ i < attempt + fuel ∧ outcomes i = AttemptOutcome.fail e := by
  intro fuel
  induction fuel with
  | zero =>
      intro attempt lastErr e h
      cases lastErr with
      | none => simp [completionsLoop] at h
      | some e' =>
          simp only [completionsLoop] at h
          cases h
          exact Or.inl rfl
  | succ n ih =>
      intro attempt lastErr e h
      simp only [completionsLoop] at h
      cases hout : outcomes attempt with
      | noToken =>
          rw [hout] at h
          cases lastErr with
          | none => dsimp only at h; cases h
          | some e' =>
              dsimp only at h
              cases h
              exact Or.inl rfl
      | success => rw [hout] at h; cases h
      | fail e' =>
          rw [hout] at h
          dsimp only at h
          have hrec : completionsLoop outcomes n (attempt + 1) (some e') =
              LoopResult.upstreamError e →
              ∃ i, attempt ≤ i ∧ i < attempt + (n + 1) ∧
                outcomes i = AttemptOutcome.fail e := by
            intro hr
            rcases ih (attempt + 1) (some e') e hr with hl | ⟨i, hi1, hi2, hi3⟩
            · refine ⟨attempt, le_refl _, by omega, ?_⟩
              rw [hout]
              injection hl with hl'
              rw [hl']
            · exact ⟨i, by omega, by omega, hi3⟩
          by_cases hrl : rate_limited e'
          · rw [if_pos hrl] at h
            exact Or.inr (hrec h)
          · rw [if_neg hrl] at h
            by_cases hst : extract_status_code e' ≠ 0 ∧
                extract_status_code e' ≠ 401 ∧ extract_status_code e' ≠ 403
            · rw [if_pos hst] at h
              exact Or.inr (hrec h)
            · rw [if_neg hst] at h
              cases h
              exact Or.inr ⟨attempt, le_refl _, by omega, hout⟩

/-- Once a failure has been recorded (`last_error` is set), the loop can never
raise the synthetic `AppException`: every exit path re-raises an error or
succeeds. -/
theorem completionsLoop_some_ne_appError (outcomes : Nat → AttemptOutcome) :
    ∀ (fuel attempt : Nat) (e : UpErr) (s : Int) (c : String),
      completionsLoop outcomes fuel attempt (some e) ≠ LoopResult.appError s c := by
  intro fuel
  induction fuel with
  | zero =>
      intro attempt e s c h
      simp [completionsLoop] at h
  | succ n ih =>
      intro attempt e s c h
      simp only [completionsLoop] at h
      cases hout : outcomes attempt with
      | noToken => rw [hout] at h; dsimp only at h; cases h
      | success => rw [hout] at h; cases h
      | fail e2 =>
          rw [hout] at h
          dsimp only at h
          by_cases hrl : rate_limited e2
          · rw [if_pos hrl] at h
            exact ih (attempt + 1) e2 s c h
          · rw [if_neg hrl] at h
            by_cases hst : extract_status_code e2 ≠ 0 ∧
                extract_status_code e2 ≠ 401 ∧ extract_status_code e2 ≠ 403
            · rw [if_pos hst] at h
              exact ih (attempt + 1) e2 s c h
            · rw [if_neg hst] at h
              cases h

/-- The synthetic error can only be raised when nothing was recorded: either
there were no attempts at all, or the very first attempt already found no
token (so the loop terminated before any failure could be stored in
`last_error`). -/
theorem completionsLoop_appError_start (m : Nat) (outcomes : Nat → AttemptOutcome)
    (s : Int) (c : String)
    (h : chatCompletionsRetry m outcomes = LoopResult.appError s c) :
    m = 0 ∨ outcomes 0 = AttemptOutcome.noToken := by
  unfold chatCompletionsRetry at h
  cases m with
  | zero => exact Or.inl rfl
  | succ n =>
      simp only [completionsLoop] at h
      cases hout : outcomes 0 with
      | noToken => exact Or.inr rfl
      | success => rw [hout] at h; cases h
      | fail e =>
          rw [hout] at h
          dsimp only at h
          by_cases hrl : rate_limited e
          · rw [if_pos hrl] at h
            exact absurd h (completionsLoop_some_ne_appError outcomes n 1 e s c)
          · rw [if_neg hrl] at h
            by_cases hst : extract_status_code e ≠ 0 ∧
                extract_status_code e ≠ 401 ∧ extract_status_code e ≠ 403
            · rw [if_pos hst] at h
              exact absurd h (completionsLoop_some_ne_appError outcomes n 1 e s c)
            · rw [if_neg hst] at h
              cases h

/-- Exhaustion after a run of `k` retryable failures re-raises exactly the
last recorded one (`es (k-1)`), or the incoming `last_error` when `k = 0`. -/
theorem completionsLoop_lastError (outcomes : Nat → AttemptOutcome) :
    ∀ (fuel attempt k : Nat) (e0 : UpErr) (es : Nat → UpErr),
      (∀ i, i < k → outcomes (attempt + i) = AttemptOutcome.fail (es i) ∧
        (rate_limited (es i) = true ∨
          (extract_status_code (es i) ≠ 0 ∧ extract_status_code (es i) ≠ 401 ∧
            extract_status_code (es i) ≠ 403))) →
      (k = fuel ∨ (k < fuel ∧ outcomes (attempt + k) = AttemptOutcome.noToken)) →
      completionsLoop outcomes fuel attempt (some e0) =
        LoopResult.upstreamError (if k = 0 then e0 else es (k - 1)) := by
  intro fuel
  induction fuel with
  | zero =>
      intro attempt k e0 es hfail hstop
      rcases hstop with hk | ⟨hk, -⟩
      · subst hk
        simp [completionsLoop]
      · exact absurd hk (Nat.not_lt_zero k)
  | succ n ih =>
      intro attempt k e0 es hfail hstop
      cases k with
      | zero =>
          rcases hstop with hk | ⟨-, hnt⟩
          · exact absurd hk (by omega)
          · rw [Nat.add_zero] at hnt
            simp [completionsLoop, hnt]
      | succ j =>
          obtain ⟨hout, hretry⟩ := hfail 0 (by omega)
          rw [Nat.add_zero] at hout
          have hcont : completionsLoop outcomes (n + 1) attempt (some e0) =
              completionsLoop outcomes n (attempt + 1) (some (es 0)) := by
            simp only [completionsLoop, hout]
            by_cases hrl : rate_limited (es 0)
            · rw [if_pos hrl]
            · rw [if_neg hrl]
              have hst : extract_status_code (es 0) ≠ 0 ∧
                  extract_status_code (es 0) ≠ 401 ∧ extract_status_code (es 0) ≠ 403 := by
                rcases hretry with h | h
                · exact absurd h hrl
                · exact h
              rw [if_pos hst]
          rw [hcont]
          have hf : ∀ i, i < j →
              outcomes (attempt + 1 + i) = AttemptOutcome.fail (es (i + 1)) ∧
              (rate_limited (es (i + 1)) = true ∨
                (extract_status_code (es (i + 1)) ≠ 0 ∧
                  extract_status_code (es (i + 1)) ≠ 401 ∧
                  extract_status_code (es (i + 1)) ≠ 403)) := by
            intro i hi
            have := hfail (i + 1) (by omega)
            rwa [show attempt + (i + 1) = attempt + 1 + i by omega] at this
          have hs : j = n ∨ (j < n ∧ outcomes (attempt + 1 + j) = AttemptOutcome.noToken) := by
            rcases hstop with hk | ⟨hk, hnt⟩
            · left; omega
            · right
              refine ⟨by omega, ?_⟩
              rwa [show attempt + (j + 1) = attempt + 1 + j by omega] at hnt
          rw [ih (attempt + 1) j (es 0) (fun i => es (i + 1)) hf hs]
          have harg : (if j = 0 then es 0 else (fun i => es (i + 1)) (j - 1)) = es j := by
            by_cases hj : j = 0
            · rw [if_pos hj, hj]
            · rw [if_neg hj]
              dsimp only
              congr 1
              omega
          rw [harg, if_neg (Nat.succ_ne_zero j)]
          rfl

/-- C3 (amended): when the retry loop of `ChatService.completions` ends
without success, the synthetic 429 `rate_limit_exceeded` error is raised only
if no upstream failure was recorded — an `AppException` exit forces `m = 0`
or a no-token result on the very first attempt, and any such exception is
that 429; when the loop exhausts after a run of retryable upstream failures
(each rate-limited or with truthy status outside {401, 403}) it re-raises the
last recorded failure, whose status may be any retryable status such as a
5xx; and every upstream error it raises was some attempt's recorded
failure. -/
theorem C3_exhaustion_error :
    (∀ (m : Nat) (outcomes : Nat → AttemptOutcome) (s : Int) (c : String),
      chatCompletionsRetry m outcomes = LoopResult.appError s c →
        s = 429 ∧ c = "rate_limit_exceeded" ∧
        (m = 0 ∨ outcomes 0 = AttemptOutcome.noToken)) ∧
    (∀ (m : Nat) (outcomes : Nat → AttemptOutcome),
      (∀ i, outcomes i = AttemptOutcome.noToken) →
        chatCompletionsRetry m outcomes = LoopResult.appError 429 "rate_limit_exceeded") ∧
    (∀ (m k : Nat) (outcomes : Nat → AttemptOutcome) (es : Nat → UpErr),
      (∀ i, i < k → outcomes i = AttemptOutcome.fail (es i) ∧
        (rate_limited (es i) = true ∨
          (extract_status_code (es i) ≠ 0 ∧ extract_status_code (es i) ≠ 401 ∧
            extract_status_code (es i) ≠ 403))) →
      (k = m ∨ (k < m ∧ outcomes k = AttemptOutcome.noToken)) →
      1 ≤ k →
      chatCompletionsRetry m outcomes = LoopResult.upstreamError (es (k - 1))) ∧
    (∀ (m : Nat) (outcomes : Nat → AttemptOutcome) (e : UpErr),
      chatCompletionsRetry m outcomes = LoopResult.upstreamError e →
        ∃ i, i < m ∧ outcomes i = AttemptOutcome.fail e) := by
  refine ⟨?_, ?_, ?_, ?_⟩
  · intro m outcomes s c h
    obtain ⟨hs, hc⟩ := completionsLoop_appError outcomes m 0 none s c h
    exact ⟨hs, hc, completionsLoop_appError_start m outcomes s c h⟩
  · intro m outcomes h
    exact completionsLoop_noToken outcomes h m 0
  · intro m k outcomes es hfail hstop hk
    cases k with
    | zero => exact absurd hk (by omega)
    | succ j =>
        obtain ⟨hout, hretry⟩ := hfail 0 (by omega)
        unfold chatCompletionsRetry
        cases m with
        | zero =>
            rcases hstop with hkm | ⟨hkm, -⟩
            · cases hkm
            · exact absurd hkm (Nat.not_lt_zero _)
        | succ n =>
            have hcont : completionsLoop outcomes (n + 1) 0 none =
                completionsLoop outcomes n 1 (some (es 0)) := by
              simp only [completionsLoop, hout]
              by_cases hrl : rate_limited (es 0)
              · rw [if_pos hrl]
              · rw [if_neg hrl]
                have hst : extract_status_code (es 0) ≠ 0 ∧
                    extract_status_code (es 0) ≠ 401 ∧
                    extract_status_code (es 0) ≠ 403 := by
                  rcases hretry with h | h
                  · exact absurd h hrl
                  · exact h
                rw [if_pos hst]
            rw [hcont]
            have hf : ∀ i, i < j →
                outcomes (1 + i) = AttemptOutcome.fail (es (i + 1)) ∧
                (rate_limited (es (i + 1)) = true ∨
                  (extract_status_code (es (i + 1)) ≠ 0 ∧
                    extract_status_code (es (i + 1)) ≠ 401 ∧
                    extract_status_code (es (i + 1)) ≠ 403)) := by
              intro i hi
              have := hfail (i + 1) (by omega)
              rw [show (1 : Nat) + i = i + 1 by omega]
              exact this
            have hs : j = n ∨ (j < n ∧ outcomes (1 + j) = AttemptOutcome.noToken) := by
              rcases hstop with hkm | ⟨hkm, hnt⟩
              · left; omega
              · right
                refine ⟨by omega, ?_⟩
                rwa [show j + 1 = 1 + j by omega] at hnt
            rw [completionsLoop_lastError outcomes n 1 j (es 0) (fun i => es (i + 1)) hf hs]
            have harg : (if j = 0 then es 0 else (fun i => es (i + 1)) (j - 1)) = es j := by
              by_cases hj : j = 0
              · rw [if_pos hj, hj]
              · rw [if_neg hj]
                dsimp only
                congr 1
                omega
            rw [harg]
            rfl
  · intro m outcomes e h
    rcases completionsLoop_upstreamError outcomes m 0 none e h with hl | ⟨i, _, hi2, hi3⟩
    · cases hl
    · exact ⟨i, by omega, hi3⟩

/-- C3 witness: at `m = 1` the synthetic-429 exit implies `m = 0` or a
no-token first attempt; three no-token attempts raise the synthetic 429; a
two-attempt history of a recorded 502 followed by a recorded 500 re-raises
the last recorded failure (the 500, not the 502 and not the synthetic 429);
and any raised 500 was some attempt's recorded failure. -/
theorem C3_exhaustion_error_witness :
    ((429 : Int) = 429 ∧ "rate_limit_exceeded" = "rate_limit_exceeded" ∧
      ((1 : Nat) = 0 ∨ (fun _ => AttemptOutcome.noToken) 0 = AttemptOutcome.noToken)) ∧
    chatCompletionsRetry 3 (fun _ => AttemptOutcome.noToken) =
        LoopResult.appError 429 "rate_limit_exceeded" ∧
    chatCompletionsRetry 2
        (fun i => AttemptOutcome.fail (if i = 0 then ⟨502, none⟩ else ⟨500, none⟩)) =
      LoopResult.upstreamError
        ((fun i => if i = 0 then (⟨502, none⟩ : UpErr) else ⟨500, none⟩) (2 - 1)) ∧
    (∃ i, i < 1 ∧ (fun _ => AttemptOutcome.fail ⟨500, none⟩) i =
        AttemptOutcome.fail ⟨500, none⟩) :=
  ⟨C3_exhaustion_error.1 1 (fun _ => AttemptOutcome.noToken) 429 "rate_limit_exceeded"
     (by decide),
   C3_exhaustion_error.2.1 3 (fun _ => AttemptOutcome.noToken) (fun _ => rfl),
   C3_exhaustion_error.2.2.1 2 2
     (fun i => AttemptOutcome.fail (if i = 0 then ⟨502, none⟩ else ⟨500, none⟩))
     (fun i => if i = 0 then ⟨502, none⟩ else ⟨500, none⟩)
     (by intro i hi; refine ⟨rfl, Or.inr ?_⟩; by_cases hi0 : i = 0 <;> simp [hi0] <;> decide)
     (Or.inl rfl) (by omega),
   C3_exhaustion_error.2.2.2 1 (fun _ => AttemptOutcome.fail ⟨500, none⟩) ⟨500, none⟩
     (by decide)⟩

/-- C3 counterexample: with max_retry = 1 and a single upstream failure of
status 500, the loop re-raises the 500 error (`raise last_error`), not the
synthetic 429 `rate_limit_exceeded` error the claim demands. -/
theorem C3_counterexample :
    chatCompletionsRetry 1 (fun _ => AttemptOutcome.fail ⟨500, none⟩) =
        LoopResult.upstreamError ⟨500, none⟩ ∧
      extract_status_code ⟨500, none⟩ ≠ 429 := by
  decide

/-- Any timeout produced by one wait is the typed error of the tier whose
(positive) bound was in force. -/
theorem waitStep_sound (cfg : TimeoutCfg) (elapsed : ℤ) (isFirst : Bool) (delay : ℤ)
    (err : StreamTimeout) (h : waitStep cfg elapsed isFirst delay = some err) :
    (err = StreamTimeout.firstTimeout cfg.first ∧ 0 < cfg.first) ∨
    (err = StreamTimeout.idleTimeout cfg.idle ∧ 0 < cfg.idle) ∨
    (err = StreamTimeout.totalTimeout cfg.total ∧ 0 < cfg.total) := by
  unfold waitStep at h
  by_cases c2 : cfg.total > 0 ∧ cfg.total - elapsed ≤ 0
  · rw [if_pos c2] at h
    injection h with h
    exact Or.inr (Or.inr ⟨h.symm, c2.1⟩)
  · rw [if_neg c2] at h
    by_cases c1 : isFirst = true ∧ cfg.first > 0
    · simp only [if_pos c1] at h
      by_cases c3 : cfg.total > 0
      · rw [if_pos c3] at h
        by_cases c4 : cfg.first ≤ 0
        · rw [if_pos c4] at h
          by_cases c6 : delay > cfg.total - elapsed
          · rw [if_pos c6] at h
            injection h with h
            exact Or.inr (Or.inr ⟨h.symm, c3⟩)
          · rw [if_neg c6] at h; cases h
        · rw [if_neg c4] at h
          by_cases c5 : cfg.total - elapsed < cfg.first
          · rw [if_pos c5] at h
            by_cases c6 : delay > cfg.total - elapsed
            · rw [if_pos c6] at h
              injection h with h
              exact Or.inr (Or.inr ⟨h.symm, c3⟩)
            · rw [if_neg c6] at h; cases h
          · rw [if_neg c5] at h
            by_cases c6 : delay > cfg.first
            · rw [if_pos c6] at h
              injection h with h
              exact Or.inl ⟨h.symm, c1.2⟩
            · rw [if_neg c6] at h; cases h
      · rw [if_neg c3] at h
        by_cases c4 : cfg.first > 0
        · rw [if_pos c4] at h
          by_cases c6 : delay > cfg.first
          · rw [if_pos c6] at h
            injection h with h
            exact Or.inl ⟨h.symm, c1.2⟩
          · rw [if_neg c6] at h; cases h
        · rw [if_neg c4] at h; cases h
    · simp only [if_neg c1] at h
      by_cases c3 : cfg.total > 0
      · rw [if_pos c3] at h
        by_cases c4 : cfg.idle ≤ 0
        · rw [if_pos c4] at h
          by_cases c6 : delay > cfg.total - elapsed
          · rw [if_pos c6] at h
            injection h with h
            exact Or.inr (Or.inr ⟨h.symm, c3⟩)
          · rw [if_neg c6] at h; cases h
        · rw [if_neg c4] at h
          by_cases c5 : cfg.total - elapsed < cfg.idle
          · rw [if_pos c5] at h
            by_cases c6 : delay > cfg.total - elapsed
            · rw [if_pos c6] at h
              injection h with h
              exact Or.inr (Or.inr ⟨h.symm, c3⟩)
            · rw [if_neg c6] at h; cases h
          · rw [if_neg c5] at h
            by_cases c6 : delay > cfg.idle
            · rw [if_pos c6] at h
              injection h with h
              exact Or.inr (Or.inl ⟨h.symm, by linarith⟩)
            · rw [if_neg c6] at h; cases h
      · rw [if_neg c3] at h
        by_cases c4 : cfg.idle > 0
        · rw [if_pos c4] at h
          by_cases c6 : delay > cfg.idle
          · rw [if_pos c6] at h
            injection h with h
            exact Or.inr (Or.inl ⟨h.symm, c4⟩)
          · rw [if_neg c6] at h; cases h
        · rw [if_neg c4] at h; cases h

/-- Timeout soundness lifted through the supervised loop. -/
theorem withStreamTimeoutsGo_sound {α : Type} (cfg : TimeoutCfg) (endDelay : ℤ) :
    ∀ (events : List (ℤ × α)) (elapsed : ℤ) (isFirst : Bool) (ys : List α)
      (err : StreamTimeout),
      withStreamTimeoutsGo cfg endDelay events elapsed isFirst = (ys, some err) →
        (err = StreamTimeout.firstTimeout cfg.first ∧ 0 < cfg.first) ∨
        (err = StreamTimeout.idleTimeout cfg.idle ∧ 0 < cfg.idle) ∨
        (err = StreamTimeout.totalTimeout cfg.total ∧ 0 < cfg.total) := by
  intro events
  induction events with
  | nil =>
      intro elapsed isFirst ys err h
      simp only [withStreamTimeoutsGo] at h
      cases hw : waitStep cfg elapsed isFirst endDelay with
      | none => rw [hw] at h; cases h
      | some e =>
          rw [hw] at h
          dsimp only at h
          have : e = err := by
            have := congrArg Prod.snd h
            simpa using this
          subst this
          exact waitStep_sound cfg elapsed isFirst endDelay e hw
  | cons p rest ih =>
      intro elapsed isFirst ys err h
      obtain ⟨d, a⟩ := p
      simp only [withStreamTimeoutsGo] at h
      cases hw : waitStep cfg elapsed isFirst d with
      | none =>
          rw [hw] at h
          dsimp only at h
          have hsnd := congrArg Prod.snd h
          simp only at hsnd
          exact ih (elapsed + d) false
            (withStreamTimeoutsGo cfg endDelay rest (elapsed + d) false).1 err
            (by rw [← hsnd])
      | some e =>
          rw [hw] at h
          dsimp only at h
          have : e = err := by
            have := congrArg Prod.snd h
            simpa using this
          subst this
          exact waitStep_sound cfg elapsed isFirst d e hw

/-- Value of one wait when only the idle tier is configured. -/
theorem waitStep_first_zero (i : ℤ) (hi : 0 < i) (elapsed d : ℤ) (isFirst : Bool) :
    waitStep ⟨0, i, 0⟩ elapsed isFirst d =
      if i < d then some (StreamTimeout.idleTimeout i) else none := by
  unfold waitStep
  split_ifs <;> first | rfl | omega | simp_all

/-- C9 (amended): a tier set to 0 is disabled (all three disabled short-
circuits to plain iteration); every expiry raises the typed error of the
tier whose positive bound was in force, and each typed error maps to a 504
upstream error in the stream processor; but with `first_timeout == 0` and a
positive `idle_timeout`, the wait for the first yielded line is bounded by
the idle tier (not only by `total_timeout`): a first delay above
`idle_timeout` raises the idle error, a first delay within it yields the
line. -/
theorem C9_stream_timeouts :
    (∀ (events : List (ℤ × String)) (endDelay : ℤ),
      withStreamTimeouts ⟨0, 0, 0⟩ events endDelay = (events.map (fun p => p.2), none)) ∧
    (∀ (cfg : TimeoutCfg) (events : List (ℤ × String)) (endDelay : ℤ)
        (ys : List String) (err : StreamTimeout),
      withStreamTimeouts cfg events endDelay = (ys, some err) →
        (err = StreamTimeout.firstTimeout cfg.first ∧ 0 < cfg.first) ∨
        (err = StreamTimeout.idleTimeout cfg.idle ∧ 0 < cfg.idle) ∨
        (err = StreamTimeout.totalTimeout cfg.total ∧ 0 < cfg.total)) ∧
    (∀ err : StreamTimeout, (streamTimeoutToUpstream err).1 = 504) ∧
    (∀ (i d : ℤ) (a : String) (rest : List (ℤ × String)) (endDelay : ℤ),
      0 < i → i < d →
        withStreamTimeouts ⟨0, i, 0⟩ ((d, a) :: rest) endDelay =
          ([], some (StreamTimeout.idleTimeout i))) ∧
    (∀ (i d : ℤ) (a : String) (rest : List (ℤ × String)) (endDelay : ℤ),
      0 < i → d ≤ i →
        ((withStreamTimeouts ⟨0, i, 0⟩ ((d, a) :: rest) endDelay).1).head? = some a) := by
  refine ⟨?_, ?_, ?_, ?_, ?_⟩
  · intro events endDelay
    unfold withStreamTimeouts
    rw [if_pos (by norm_num)]
  · intro cfg events endDelay ys err h
    unfold withStreamTimeouts at h
    by_cases hz : cfg.first ≤ 0 ∧ cfg.idle ≤ 0 ∧ cfg.total ≤ 0
    · rw [if_pos hz] at h
      cases h
    · rw [if_neg hz] at h
      exact withStreamTimeoutsGo_sound cfg endDelay events 0 true ys err h
  · intro err
    cases err <;> rfl
  · intro i d a rest endDelay hi hd
    unfold withStreamTimeouts
    rw [if_neg (by intro hc; exact absurd hi (not_lt.2 hc.2.1))]
    simp only [withStreamTimeoutsGo]
    rw [waitStep_first_zero i hi 0 d true, if_pos hd]
  · intro i d a rest endDelay hi hd
    unfold withStreamTimeouts
    rw [if_neg (by intro hc; exact absurd hi (not_lt.2 hc.2.1))]
    simp only [withStreamTimeoutsGo]
    rw [waitStep_first_zero i hi 0 d true, if_neg (not_lt.2 hd)]
    rfl

/-- C9 witness: concrete instances of every conjunct — a disabled
configuration yields the whole stream; a concrete idle expiry carries the
idle tier; idle bounds the first wait (10 > 5 errors, 3 ≤ 5 yields). -/
theorem C9_stream_timeouts_witness :
    withStreamTimeouts ⟨0, 0, 0⟩ [((7 : ℤ), "x")] 0 = (["x"], none) ∧
    ((StreamTimeout.idleTimeout (5 : ℤ) = StreamTimeout.firstTimeout (0 : ℤ) ∧
        (0 : ℤ) < 0) ∨
      (StreamTimeout.idleTimeout (5 : ℤ) = StreamTimeout.idleTimeout (5 : ℤ) ∧
        (0 : ℤ) < 5) ∨
      (StreamTimeout.idleTimeout (5 : ℤ) = StreamTimeout.totalTimeout (100 : ℤ) ∧
        (0 : ℤ) < 100)) ∧
    withStreamTimeouts ⟨0, 5, 0⟩ [((10 : ℤ), "x")] 0 =
      ([], some (StreamTimeout.idleTimeout 5)) ∧
    (withStreamTimeouts ⟨0, 5, 0⟩ [((3 : ℤ), "x")] 0).1.head? = some "x" :=
  ⟨C9_stream_timeouts.1 [((7 : ℤ), "x")] 0,
   C9_stream_timeouts.2.1 ⟨0, 5, 100⟩ [((10 : ℤ), "x")] 0 []
     (StreamTimeout.idleTimeout 5) (by decide),
   C9_stream_timeouts.2.2.2.1 5 10 "x" [] 0 (by norm_num) (by norm_num),
   C9_stream_timeouts.2.2.2.2 5 3 "x" [] 0 (by norm_num) (by norm_num)⟩

/-- C9 counterexample: with `first_timeout = 0`, `idle_timeout = 5` and
`total_timeout = 100`, a first line arriving after 10 seconds (well within
the total bound) is not yielded — the idle tier bounds the first wait and
raises the idle error, contradicting "bounded only by total_timeout". -/
theorem C9_counterexample :
    withStreamTimeouts ⟨0, 5, 100⟩ [((10 : ℤ), "x")] 0 =
      ([], some (StreamTimeout.idleTimeout 5)) := by
  decide

/-- C5 (amended): `compute_history_hash(messages, exclude_last_user)` equals
the first 16 hex characters of the SHA-256 of the `system:<text>` lines in
message order followed by the `user:<text>` lines in message order (grouped
by role, not interleaved), joined with a newline; the empty message list and
lists leaving no system/user line yield the empty string. -/
theorem C5_history_hash_grouped (messages : List Message) (excl : Bool) :
    compute_history_hash messages excl = specHashGrouped messages excl := by
  unfold compute_history_hash specHashGrouped
  simp only [historyScan_eq]

/-- C5 counterexample: on `[user:"u", system:"s"]` the code hashes the system
line first (`"system:s\nuser:u"`), not the interleaved order
(`"user:u\nsystem:s"`) demanded by the claim, and the digests differ. -/
theorem C5_counterexample :
    compute_history_hash [⟨"user", .str "u"⟩, ⟨"system", .str "s"⟩] false ≠
      specHashInterleaved [⟨"user", .str "u"⟩, ⟨"system", .str "s"⟩] false := by
  decide

/-- C6: the history hash is deterministic, ignores appended assistant
messages, and dropping the newest user turn (exclude_last_user with an
assistant present) reproduces the hash of the conversation before the new
turn. -/
theorem C6_hash_stability :
    (∀ M : List Message, compute_history_hash M = compute_history_hash M) ∧
    (∀ (M : List Message) (c : Content),
      compute_history_hash (M ++ [⟨"assistant", c⟩]) = compute_history_hash M) ∧
    (∀ s u1 a1 u2 : Content,
      compute_history_hash
          [⟨"system", s⟩, ⟨"user", u1⟩, ⟨"assistant", a1⟩, ⟨"user", u2⟩] true =
        compute_history_hash [⟨"system", s⟩, ⟨"user", u1⟩] false) := by
  refine ⟨fun M => rfl, ?_, ?_⟩
  · intro M c
    by_cases hM : M = []
    · subst hM
      simp [compute_history_hash, historyScan_eq, sysLines, userLines, hasAssistantB]
    · simp [compute_history_hash, hM, historyScan_eq, sysLines, userLines, hasAssistantB,
        List.filter_append, List.map_append]
  · intro s u1 a1 u2
    simp [compute_history_hash, historyScan, historyStep, joinSep]

theorem captureFields_thinkOpened (st : PState) (d : LineData) :
    (captureFields st d).thinkOpened = st.thinkOpened := by
  unfold captureFields
  dsimp only
  repeat' split
  all_goals rfl

theorem captureFields_imageThinkActive (st : PState) (d : LineData) :
    (captureFields st d).imageThinkActive = st.imageThinkActive := by
  unfold captureFields
  dsimp only
  repeat' split
  all_goals rfl

theorem captureFields_roleSent (st : PState) (d : LineData) :
    (captureFields st d).roleSent = st.roleSent := by
  unfold captureFields
  dsimp only
  repeat' split
  all_goals rfl

theorem filterToken_thinkOpened (env : PEnv) (st : PState) (tok : String) :
    (filterToken env st tok).2.thinkOpened = st.thinkOpened := by
  unfold filterToken
  dsimp only
  repeat' split
  all_goals rfl

theorem filterToken_imageThinkActive (env : PEnv) (st : PState) (tok : String) :
    (filterToken env st tok).2.imageThinkActive = st.imageThinkActive := by
  unfold filterToken
  dsimp only
  repeat' split
  all_goals rfl

theorem filterToken_roleSent (env : PEnv) (st : PState) (tok : String) :
    (filterToken env st tok).2.roleSent = st.roleSent := by
  unfold filterToken
  dsimp only
  repeat' split
  all_goals rfl

/-- Scanning a concatenation threads the depth. -/
theorem thinkDepth_append (A B : List OutFrame) :
    ∀ k, thinkDepth (A ++ B) k =
      match thinkDepth A k with
      | some k' => thinkDepth B k'
      | none => none := by
  induction A with
  | nil => intro k; simp [thinkDepth]
  | cons f fs ih =>
      intro k
      cases f with
      | thinkOpen => simp [thinkDepth, ih]
      | thinkClose s =>
          cases k with
          | zero => simp [thinkDepth]
          | succ k' => simp [thinkDepth, ih]
      | role => simp [thinkDepth, ih]
      | content s => simp [thinkDepth, ih]
      | stop => simp [thinkDepth, ih]
      | done => simp [thinkDepth, ih]

/-- A successful scan relates the marker counts to the initial and final
depths. -/
theorem thinkDepth_counts :
    ∀ (fs : List OutFrame) (k k' : Nat), thinkDepth fs k = some k' →
      fs.countP isThinkOpenF + k = fs.countP isThinkCloseF + k' := by
  intro fs
  induction fs with
  | nil =>
      intro k k' h
      simp only [thinkDepth] at h
      injection h with h
      simp [h]
  | cons f fs ih =>
      intro k k' h
      cases f with
      | thinkOpen =>
          simp only [thinkDepth] at h
          have := ih (k + 1) k' h
          simp [List.countP_cons, isThinkOpenF, isThinkCloseF]
          omega
      | thinkClose s =>
          simp only [thinkDepth] at h
          cases k with
          | zero => cases h
          | succ kk =>
              have := ih kk k' h
              simp [List.countP_cons, isThinkOpenF, isThinkCloseF]
              omega
      | role =>
          have := ih k k' (by simpa [thinkDepth] using h)
          simp [List.countP_cons, isThinkOpenF, isThinkCloseF]
          omega
      | content s =>
          have := ih k k' (by simpa [thinkDepth] using h)
          simp [List.countP_cons, isThinkOpenF, isThinkCloseF]
          omega
      | stop =>
          have := ih k k' (by simpa [thinkDepth] using h)
          simp [List.countP_cons, isThinkOpenF, isThinkCloseF]
          omega
      | done =>
          have := ih k k' (by simpa [thinkDepth] using h)
          simp [List.countP_cons, isThinkOpenF, isThinkCloseF]
          omega

/-- A successful scan bounds the closer count of every prefix. -/
theorem thinkDepth_take :
    ∀ (fs : List OutFrame) (k k' : Nat), thinkDepth fs k = some k' →
      ∀ n, (fs.take n).countP isThinkCloseF ≤ (fs.take n).countP isThinkOpenF + k := by
  intro fs
  induction fs with
  | nil => intro k k' _ n; simp
  | cons f fs ih =>
      intro k k' h n
      cases n with
      | zero => simp
      | succ m =>
          cases f with
          | thinkOpen =>
              simp only [thinkDepth] at h
              have := ih (k + 1) k' h m
              simp [List.countP_cons, isThinkOpenF, isThinkCloseF]
              omega
          | thinkClose s =>
              simp only [thinkDepth] at h
              cases k with
              | zero => cases h
              | succ kk =>
                  have := ih kk k' h m
                  simp [List.countP_cons, isThinkOpenF, isThinkCloseF]
                  omega
          | role =>
              have := ih k k' (by simpa [thinkDepth] using h) m
              simp [List.countP_cons, isThinkOpenF, isThinkCloseF]
              omega
          | content s =>
              have := ih k k' (by simpa [thinkDepth] using h) m
              simp [List.countP_cons, isThinkOpenF, isThinkCloseF]
              omega
          | stop =>
              have := ih k k' (by simpa [thinkDepth] using h) m
              simp [List.countP_cons, isThinkOpenF, isThinkCloseF]
              omega
          | done =>
              have := ih k k' (by simpa [thinkDepth] using h) m
              simp [List.countP_cons, isThinkOpenF, isThinkCloseF]
              omega

/-- Rendered-image frames are pure content and leave the depth unchanged. -/
theorem thinkDepth_map_content (g : String → String) (urls : List String) :
    ∀ k, thinkDepth (urls.map (fun u => OutFrame.content (g u))) k = some k := by
  induction urls with
  | nil => intro k; simp [thinkDepth]
  | cons u us ih => intro k; simp [thinkDepth, ih]

theorem countP_map_content (g : String → String) (urls : List String)
    (p : OutFrame → Bool) (hp : ∀ s, p (OutFrame.content s) = false) :
    (urls.map (fun u => OutFrame.content (g u))).countP p = 0 := by
  induction urls with
  | nil => simp
  | cons u us ih => simp [List.countP_cons, hp, ih]

theorem countP_map_content_role (g : String → String) (urls : List String) :
    (urls.map (fun u => OutFrame.content (g u))).countP isRoleF = 0 :=
  countP_map_content g urls isRoleF (fun _ => rfl)

theorem countP_map_content_stop (g : String → String) (urls : List String) :
    (urls.map (fun u => OutFrame.content (g u))).countP isStopF = 0 :=
  countP_map_content g urls isStopF (fun _ => rfl)

theorem countP_map_content_done (g : String → String) (urls : List String) :
    (urls.map (fun u => OutFrame.content (g u))).countP isDoneF = 0 :=
  countP_map_content g urls isDoneF (fun _ => rfl)

theorem countP_map_content_open (g : String → String) (urls : List String) :
    (urls.map (fun u => OutFrame.content (g u))).countP isThinkOpenF = 0 :=
  countP_map_content g urls isThinkOpenF (fun _ => rfl)

theorem countP_map_content_close (g : String → String) (urls : List String) :
    (urls.map (fun u => OutFrame.content (g u))).countP isThinkCloseF = 0 :=
  countP_map_content g urls isThinkCloseF (fun _ => rfl)

/-- Per-line think-depth step: the frames of one line scan successfully from
the incoming open flag to the outgoing open flag. -/
theorem processLine_thinkDepth (env : PEnv) (st : PState) (l : InLine) :
    thinkDepth (processLine env st l).2 st.openFlag =
      some ((processLine env st l).1.openFlag) := by
  cases l with
  | unparsed => simp [processLine, thinkDepth]
  | parsed d =>
      unfold processLine
      dsimp only
      repeat' split
      all_goals
        simp_all [thinkDepth, PState.openFlag, captureFields_thinkOpened,
          captureFields_imageThinkActive, captureFields_roleSent,
          filterToken_thinkOpened, filterToken_imageThinkActive, filterToken_roleSent,
          thinkDepth_map_content]

/-- Per-line marker suppression: with thinking output disabled and no open
marker, a line emits no marker frames and leaves the marker closed. -/
theorem processLine_noThink (env : PEnv) (st : PState) (l : InLine)
    (hshow : env.showThink = false) (hopen : st.thinkOpened = false) :
    (processLine env st l).2.countP isThinkOpenF = 0 ∧
    (processLine env st l).2.countP isThinkCloseF = 0 ∧
    (processLine env st l).1.thinkOpened = false := by
  cases l with
  | unparsed => simp [processLine, hopen]
  | parsed d =>
      unfold processLine
      dsimp only
      repeat' split
      all_goals
        simp_all [List.countP_cons, List.countP_append, isThinkOpenF, isThinkCloseF,
          isRoleF, captureFields_thinkOpened, captureFields_imageThinkActive,
          captureFields_roleSent, filterToken_thinkOpened, filterToken_imageThinkActive,
          filterToken_roleSent, countP_map_content_open, countP_map_content_close]

/-- Per-line framing: no finish or done frames are emitted inside the loop. -/
theorem processLine_noStopDone (env : PEnv) (st : PState) (l : InLine) :
    (processLine env st l).2.countP isStopF = 0 ∧
    (processLine env st l).2.countP isDoneF = 0 := by
  cases l with
  | unparsed => simp [processLine]
  | parsed d =>
      unfold processLine
      dsimp only
      repeat' split
      all_goals
        simp_all [List.countP_cons, List.countP_append, isStopF, isDoneF,
          countP_map_content_stop, countP_map_content_done]

/-- Per-line role flag: the role chunk flag is set exactly by parsed lines. -/
theorem processLine_roleSent (env : PEnv) (st : PState) (l : InLine) :
    (processLine env st l).1.roleSent = (st.roleSent || isParsedB l) := by
  cases l with
  | unparsed => simp [processLine, isParsedB]
  | parsed d =>
      unfold processLine
      dsimp only
      repeat' split
      all_goals
        simp_all [isParsedB, captureFields_roleSent, filterToken_roleSent]

/-- Per-line role frames: once the role chunk was sent, no further role
frames appear. -/
theorem processLine_role_after (env : PEnv) (st : PState) (l : InLine)
    (h : st.roleSent = true) :
    (processLine env st l).2.countP isRoleF = 0 := by
  cases l with
  | unparsed => simp [processLine]
  | parsed d =>
      unfold processLine
      dsimp only
      repeat' split
      all_goals
        simp_all [List.countP_cons, List.countP_append, isRoleF,
          captureFields_roleSent, filterToken_roleSent, countP_map_content_role]

/-- Per-line role frames: the first parsed line emits the role chunk first
and exactly once. -/
theorem processLine_role_first (env : PEnv) (st : PState) (d : LineData)
    (h : st.roleSent = false) :
    (processLine env st (.parsed d)).2.head? = some OutFrame.role ∧
    (processLine env st (.parsed d)).2.countP isRoleF = 1 := by
  unfold processLine
  dsimp only
  repeat' split
  all_goals
    simp_all [List.countP_cons, List.countP_append, isRoleF,
      captureFields_roleSent, filterToken_roleSent, countP_map_content_role]

theorem head?_append_of_some {β : Type} (A B : List β) (x : β)
    (h : A.head? = some x) : (A ++ B).head? = some x := by
  cases A with
  | nil => cases h
  | cons a t => simpa using h

/-- Think-depth invariant carried through the whole line loop. -/
theorem processLines_thinkDepth (env : PEnv) :
    ∀ (lines : List InLine) (st : PState) (frames : List OutFrame),
      thinkDepth frames 0 = some st.openFlag →
      thinkDepth (processLines env st frames lines).2 0 =
        some ((processLines env st frames lines).1.openFlag) := by
  intro lines
  induction lines with
  | nil => intro st frames h; simpa [processLines] using h
  | cons l rest ih =>
      intro st frames h
      simp only [processLines]
      apply ih
      rw [thinkDepth_append, h]
      exact processLine_thinkDepth env st l

/-- Marker suppression carried through the whole line loop. -/
theorem processLines_noThink (env : PEnv) (hshow : env.showThink = false) :
    ∀ (lines : List InLine) (st : PState) (frames : List OutFrame),
      st.thinkOpened = false →
      frames.countP isThinkOpenF = 0 → frames.countP isThinkCloseF = 0 →
      (processLines env st frames lines).1.thinkOpened = false ∧
      (processLines env st frames lines).2.countP isThinkOpenF = 0 ∧
      (processLines env st frames lines).2.countP isThinkCloseF = 0 := by
  intro lines
  induction lines with
  | nil => intro st frames h1 h2 h3; exact ⟨h1, h2, h3⟩
  | cons l rest ih =>
      intro st frames h1 h2 h3
      simp only [processLines]
      obtain ⟨p1, p2, p3⟩ := processLine_noThink env st l hshow h1
      exact ih (processLine env st l).1 _ p3
        (by rw [List.countP_append]; omega)
        (by rw [List.countP_append]; omega)

/-- No finish/done frames are accumulated by the line loop. -/
theorem processLines_noStopDone (env : PEnv) :
    ∀ (lines : List InLine) (st : PState) (frames : List OutFrame),
      frames.countP isStopF = 0 → frames.countP isDoneF = 0 →
      (processLines env st frames lines).2.countP isStopF = 0 ∧
      (processLines env st frames lines).2.countP isDoneF = 0 := by
  intro lines
  induction lines with
  | nil => intro st frames h1 h2; exact ⟨h1, h2⟩
  | cons l rest ih =>
      intro st frames h1 h2
      simp only [processLines]
      obtain ⟨p1, p2⟩ := processLine_noStopDone env st l
      exact ih (processLine env st l).1 _
        (by rw [List.countP_append]; omega)
        (by rw [List.countP_append]; omega)

/-- The role flag after the loop marks whether some line parsed. -/
theorem processLines_roleSent (env : PEnv) :
    ∀ (lines : List InLine) (st : PState) (frames : List OutFrame),
      (processLines env st frames lines).1.roleSent =
        (st.roleSent || lines.any isParsedB) := by
  intro lines
  induction lines with
  | nil => intro st frames; simp [processLines]
  | cons l rest ih =>
      intro st frames
      simp only [processLines, List.any_cons]
      rw [ih, processLine_roleSent, Bool.or_assoc]

/-- Role-frame invariant carried through the line loop. -/
theorem processLines_role (env : PEnv) :
    ∀ (lines : List InLine) (st : PState) (frames : List OutFrame),
      (st.roleSent = false → frames = []) →
      (st.roleSent = true →
        frames.head? = some OutFrame.role ∧ frames.countP isRoleF = 1) →
      ((processLines env st frames lines).1.roleSent = false →
        (processLines env st frames lines).2 = []) ∧
      ((processLines env st frames lines).1.roleSent = true →
        (processLines env st frames lines).2.head? = some OutFrame.role ∧
        (processLines env st frames lines).2.countP isRoleF = 1) := by
  intro lines
  induction lines with
  | nil => intro st frames h1 h2; exact ⟨h1, h2⟩
  | cons l rest ih =>
      intro st frames h1 h2
      simp only [processLines]
      cases hrs : st.roleSent with
      | true =>
          obtain ⟨hh, hc⟩ := h2 hrs
          refine ih (processLine env st l).1 _ ?_ ?_
          · intro hfalse
            rw [processLine_roleSent, hrs] at hfalse
            cases hfalse
          · intro _
            constructor
            · exact head?_append_of_some _ _ _ hh
            · rw [List.countP_append, hc, processLine_role_after env st l hrs]
      | false =>
          have hframes : frames = [] := h1 hrs
          subst hframes
          cases l with
          | unparsed =>
              refine ih st [] (fun _ => rfl) ?_
              · intro htrue
                rw [hrs] at htrue
                cases htrue
          | parsed d =>
              obtain ⟨hh, hc⟩ := processLine_role_first env st d hrs
              refine ih (processLine env st (.parsed d)).1 _ ?_ ?_
              · intro hfalse
                rw [processLine_roleSent, hrs] at hfalse
                simp [isParsedB] at hfalse
              · intro _
                simpa using ⟨hh, hc⟩

/-- The full emitted stream scans to depth 0: markers balance. -/
theorem process_thinkDepth (env : PEnv) (lines : List InLine) :
    thinkDepth (process env lines) 0 = some 0 := by
  unfold process
  have h := processLines_thinkDepth env lines PState.initial []
    (by simp [thinkDepth, PState.openFlag, PState.initial])
  rw [List.append_assoc, thinkDepth_append, h]
  by_cases hop : (processLines env PState.initial [] lines).1.thinkOpened
  · simp [hop, thinkDepth, PState.openFlag]
  · simp [hop, thinkDepth, PState.openFlag]

/-- C4: in every emitted stream the number of think-opener chunks equals the
number of think-closer chunks, no prefix has more closers than openers, and
with thinking output disabled no marker chunk is ever emitted. -/
theorem C4_think_marker_balance (env : PEnv) (lines : List InLine) :
    (process env lines).countP isThinkOpenF = (process env lines).countP isThinkCloseF ∧
    (∀ n, ((process env lines).take n).countP isThinkCloseF ≤
      ((process env lines).take n).countP isThinkOpenF) ∧
    (env.showThink = false →
      (process env lines).countP isThinkOpenF = 0 ∧
      (process env lines).countP isThinkCloseF = 0) := by
  have htd := process_thinkDepth env lines
  refine ⟨?_, ?_, ?_⟩
  · have := thinkDepth_counts (process env lines) 0 0 htd
    omega
  · intro n
    have := thinkDepth_take (process env lines) 0 0 htd n
    omega
  · intro hshow
    obtain ⟨hopen, h2, h3⟩ := processLines_noThink env hshow lines PState.initial []
      rfl rfl rfl
    unfold process
    dsimp only
    rw [hopen]
    constructor
    · simp [List.countP_append, h2, isThinkOpenF]
    · simp [List.countP_append, h3, isThinkCloseF]

/-- C4 witness: with thinking disabled and one reasoning token in the input,
the stream carries no marker chunks. -/
theorem C4_think_marker_balance_witness :
    ({ PEnv.default with showThink := false } : PEnv).showThink = false ∧
    (process { PEnv.default with showThink := false }
        [InLine.parsed ⟨"", { RespData.empty with isThinking := true, token := some "hi" }⟩]).countP
      isThinkOpenF = 0 ∧
    (process { PEnv.default with showThink := false }
        [InLine.parsed ⟨"", { RespData.empty with isThinking := true, token := some "hi" }⟩]).countP
      isThinkCloseF = 0 :=
  ⟨rfl,
   (C4_think_marker_balance { PEnv.default with showThink := false }
     [InLine.parsed ⟨"", { RespData.empty with isThinking := true, token := some "hi" }⟩]).2.2 rfl⟩

/-- C2 (amended): every completed stream ends with exactly one
`finish_reason:"stop"` chunk followed by the terminal `[DONE]` frame; when at
least one input line parses to JSON the stream starts with exactly one
role-setting chunk, but a stream with no parseable JSON line emits no role
chunk at all (only the stop chunk and `[DONE]`). -/
theorem C2_stream_framing (env : PEnv) (lines : List InLine) :
    ((process env lines).countP isStopF = 1 ∧
     (process env lines).countP isDoneF = 1 ∧
     ∃ body, process env lines = body ++ [OutFrame.stop, OutFrame.done] ∧
       body.countP isStopF = 0 ∧ body.countP isDoneF = 0) ∧
    (lines.any isParsedB = true →
      (process env lines).head? = some OutFrame.role ∧
      (process env lines).countP isRoleF = 1) ∧
    (lines.any isParsedB = false →
      (process env lines).countP isRoleF = 0) := by
  obtain ⟨hstop, hdone⟩ := processLines_noStopDone env lines PState.initial [] rfl rfl
  refine ⟨?_, ?_, ?_⟩
  · refine ⟨?_, ?_, ⟨(processLines env PState.initial [] lines).2 ++
      (if (processLines env PState.initial [] lines).1.thinkOpened then
        [OutFrame.thinkClose "</think>\n"] else []), ?_, ?_, ?_⟩⟩
    · unfold process
      dsimp only
      rw [List.countP_append, List.countP_append, hstop]
      split <;> simp [isStopF]
    · unfold process
      dsimp only
      rw [List.countP_append, List.countP_append, hdone]
      split <;> simp [isDoneF]
    · rfl
    · rw [List.countP_append, hstop]
      split <;> simp [isStopF]
    · rw [List.countP_append, hdone]
      split <;> simp [isDoneF]
  · intro hparsed
    have hrs := processLines_roleSent env lines PState.initial []
    rw [hparsed] at hrs
    simp only [PState.initial, Bool.false_or] at hrs
    obtain ⟨-, hrole⟩ := processLines_role env lines PState.initial []
      (fun _ => rfl) (fun hc => by cases hc)
    obtain ⟨hh, hc⟩ := hrole hrs
    constructor
    · unfold process
      dsimp only
      rw [List.append_assoc]
      exact head?_append_of_some _ _ _ hh
    · unfold process
      dsimp only
      rw [List.countP_append, List.countP_append, hc]
      split <;> simp [isRoleF]
  · intro hnone
    have hrs := processLines_roleSent env lines PState.initial []
    rw [hnone] at hrs
    simp only [PState.initial, Bool.or_false] at hrs
    obtain ⟨hempty, -⟩ := processLines_role env lines PState.initial []
      (fun _ => rfl) (fun hc => by cases hc)
    unfold process
    dsimp only
    rw [hempty hrs]
    rw [List.countP_append, List.countP_append]
    split <;> simp [isRoleF]

/-- C2 witness: with one parsed line the stream is role, stop, done — the
role chunk opens it; framing counts are as stated. -/
theorem C2_stream_framing_witness :
    ([InLine.parsed ⟨"", RespData.empty⟩].any isParsedB = true) ∧
    (process PEnv.default [InLine.parsed ⟨"", RespData.empty⟩]).head? =
        some OutFrame.role ∧
    (process PEnv.default [InLine.parsed ⟨"", RespData.empty⟩]).countP isRoleF = 1 :=
  ⟨rfl, (C2_stream_framing PEnv.default [InLine.parsed ⟨"", RespData.empty⟩]).2.1 rfl⟩

/-- C2 counterexample: a stream whose only line does not parse emits just the
stop chunk and `[DONE]` — it does not start with a role chunk, refuting the
claim for inputs with no parseable JSON line. -/
theorem C2_counterexample :
    process PEnv.default [InLine.unparsed] = [OutFrame.stop, OutFrame.done] ∧
    (process PEnv.default [InLine.unparsed]).head? ≠ some OutFrame.role := by
  constructor
  · rfl
  · intro hc
    cases hc

/-- The hash-index invariant ignores the token index. -/
theorem hashInv_tc (st : MState) (tc : List (String × List String))
    (h : HashIndexConsistent st) :
    HashIndexConsistent { st with token_conversations := tc } := h

/-- Popping a conversation together with its hash entry preserves the
invariant. -/
theorem hashInv_popPair (st : MState) (hInv : HashIndexConsistent st)
    (cid : String) (ctx : Ctx) (hget : alistGet st.conversations cid = some ctx) :
    HashIndexConsistent { st with
      conversations := alistPop st.conversations cid,
      hash_to_conversation :=
        if ctx.history_hash ≠ "" then alistPop st.hash_to_conversation ctx.history_hash
        else st.hash_to_conversation } := by
  obtain ⟨hnc, hnm, hent⟩ := hInv
  refine ⟨nodupKeys_pop _ _ hnc, ?_, ?_⟩
  · by_cases hh : ctx.history_hash ≠ ""
    · rw [if_pos hh]; exact nodupKeys_pop _ _ hnm
    · rw [if_neg hh]; exact hnm
  · intro h cid' hmap
    simp only at hmap ⊢
    by_cases hh : ctx.history_hash ≠ ""
    · rw [if_pos hh] at hmap
      by_cases hkey : h = ctx.history_hash
      · rw [hkey, alistGet_pop_self] at hmap
        cases hmap
      · rw [alistGet_pop_ne _ _ _ hkey] at hmap
        obtain ⟨hne, ctx', hc', hh'⟩ := hent h cid' hmap
        have hcid : cid' ≠ cid := by
          intro hc
          subst hc
          rw [hget] at hc'
          injection hc' with hc'
          subst hc'
          exact hkey hh'.symm
        exact ⟨hne, ctx', by rw [alistGet_pop_ne _ _ _ hcid]; exact hc', hh'⟩
    · rw [if_neg hh] at hmap
      push_neg at hh
      obtain ⟨hne, ctx', hc', hh'⟩ := hent h cid' hmap
      have hcid : cid' ≠ cid := by
        intro hc
        subst hc
        rw [hget] at hc'
        injection hc' with hc'
        subst hc'
        exact hne (by rw [← hh', hh])
      exact ⟨hne, ctx', by rw [alistGet_pop_ne _ _ _ hcid]; exact hc', hh'⟩

/-- Variant of the pop lemma with the hash test outside the record. -/
theorem hashInv_popPair' (st : MState) (hInv : HashIndexConsistent st)
    (cid : String) (ctx : Ctx) (hget : alistGet st.conversations cid = some ctx) :
    HashIndexConsistent
      (if ctx.history_hash ≠ "" then
        { st with
          conversations := alistPop st.conversations cid,
          hash_to_conversation := alistPop st.hash_to_conversation ctx.history_hash }
      else
        { st with conversations := alistPop st.conversations cid }) := by
  have h := hashInv_popPair st hInv cid ctx hget
  by_cases hh : ctx.history_hash ≠ ""
  · rw [if_pos hh]
    simpa [hh] using h
  · rw [if_neg hh]
    simpa [hh] using h

/-- The invariant survives any token-index rewrite guarded by a lookup. -/
theorem hashInv_tcUpdate (X : MState) (hX : HashIndexConsistent X) (tok : String)
    (f : List String → List (String × List String)) :
    HashIndexConsistent (match alistGet X.token_conversations tok with
      | none => X
      | some ids => { X with token_conversations := f ids }) := by
  cases alistGet X.token_conversations tok with
  | none => exact hX
  | some ids => exact hX

/-- `delete_conversation` preserves the invariant. -/
theorem hashInv_delete (st : MState) (hInv : HashIndexConsistent st) (oid : String) :
    HashIndexConsistent (deleteConversation st oid) := by
  unfold deleteConversation
  cases hget : alistGet st.conversations oid with
  | none => exact hInv
  | some ctx =>
      dsimp only
      exact hashInv_tcUpdate _ (hashInv_popPair' st hInv oid ctx hget) ctx.token _

/-- The eviction fold of `_limit_token_conversations` preserves the
invariant. -/
theorem hashInv_evictFold (ids : List String) :
    ∀ (st : MState), HashIndexConsistent st →
      HashIndexConsistent (ids.foldl
        (fun (st : MState) convId =>
          match alistGet st.conversations convId with
          | none => st
          | some ctx =>
              { st with
                conversations := alistPop st.conversations convId,
                hash_to_conversation :=
                  if ctx.history_hash ≠ "" then
                    alistPop st.hash_to_conversation ctx.history_hash
                  else st.hash_to_conversation })
        st) := by
  induction ids with
  | nil => intro st h; exact h
  | cons cid rest ih =>
      intro st h
      simp only [List.foldl_cons]
      apply ih
      cases hget : alistGet st.conversations cid with
      | none => dsimp only; exact h
      | some ctx =>
          dsimp only
          exact hashInv_popPair st h cid ctx hget

/-- `_limit_token_conversations` preserves the invariant. -/
theorem hashInv_evict (st : MState) (hInv : HashIndexConsistent st)
    (token : String) (limit : Nat) :
    HashIndexConsistent (limitTokenConversations st token limit) := by
  unfold limitTokenConversations
  by_cases hlen : ((alistGet st.token_conversations token).getD []).length ≤ limit
  · rw [if_pos hlen]; exact hInv
  · rw [if_neg hlen]
    dsimp only
    exact hashInv_tc _ _ (hashInv_evictFold _ st hInv)

/-- Inserting a fresh conversation together with its hash entry preserves the
invariant. -/
theorem hashInv_insertPair (st : MState) (hInv : HashIndexConsistent st)
    (oid : String) (ctx : Ctx) (fresh : alistGet st.conversations oid = none) :
    HashIndexConsistent
      (if ctx.history_hash ≠ "" then
        { st with
          conversations := alistInsert st.conversations oid ctx,
          hash_to_conversation :=
            alistInsert st.hash_to_conversation ctx.history_hash oid }
      else
        { st with conversations := alistInsert st.conversations oid ctx }) := by
  obtain ⟨hnc, hnm, hent⟩ := hInv
  by_cases hh : ctx.history_hash ≠ ""
  · rw [if_pos hh]
    refine ⟨nodupKeys_insert _ _ _ hnc, nodupKeys_insert _ _ _ hnm, ?_⟩
    intro h2 cid hmap
    simp only at hmap ⊢
    by_cases hkey : h2 = ctx.history_hash
    · subst hkey
      rw [alistGet_insert_self] at hmap
      injection hmap with hmap
      subst hmap
      exact ⟨hh, ctx, by rw [alistGet_insert_self], rfl⟩
    · rw [alistGet_insert_ne _ _ _ _ hkey] at hmap
      obtain ⟨hne, ctx2, hc2, hh2⟩ := hent h2 cid hmap
      have hcid : cid ≠ oid := by
        intro hc
        subst hc
        rw [fresh] at hc2
        cases hc2
      exact ⟨hne, ctx2, by rw [alistGet_insert_ne _ _ _ _ hcid]; exact hc2, hh2⟩
  · rw [if_neg hh]
    refine ⟨nodupKeys_insert _ _ _ hnc, hnm, ?_⟩
    intro h2 cid hmap
    simp only at hmap ⊢
    obtain ⟨hne, ctx2, hc2, hh2⟩ := hent h2 cid hmap
    have hcid : cid ≠ oid := by
      intro hc
      subst hc
      rw [fresh] at hc2
      cases hc2
    exact ⟨hne, ctx2, by rw [alistGet_insert_ne _ _ _ _ hcid]; exact hc2, hh2⟩

/-- Replacing a stored conversation without changing its hash preserves the
invariant. -/
theorem hashInv_replaceCtx (st : MState) (hInv : HashIndexConsistent st)
    (oid : String) (ctx ctx' : Ctx) (hget : alistGet st.conversations oid = some ctx)
    (hh : ctx'.history_hash = ctx.history_hash) :
    HashIndexConsistent
      { st with conversations := alistInsert st.conversations oid ctx' } := by
  obtain ⟨hnc, hnm, hent⟩ := hInv
  refine ⟨nodupKeys_insert _ _ _ hnc, hnm, ?_⟩
  intro h2 cid hmap
  simp only at hmap ⊢
  obtain ⟨hne, ctx2, hc2, hh2⟩ := hent h2 cid hmap
  by_cases hcid : cid = oid
  · subst hcid
    rw [hget] at hc2
    injection hc2 with hc2
    subst hc2
    exact ⟨hne, ctx', by rw [alistGet_insert_self], by rw [hh, hh2]⟩
  · exact ⟨hne, ctx2, by rw [alistGet_insert_ne _ _ _ _ hcid]; exact hc2, hh2⟩

/-- Re-hashing a stored conversation (pop the old entry, set the new one)
preserves the invariant. -/
theorem hashInv_rehash (st : MState) (hInv : HashIndexConsistent st)
    (oid : String) (ctx ctx' : Ctx) (hget : alistGet st.conversations oid = some ctx)
    (hnew : ctx'.history_hash ≠ "") :
    HashIndexConsistent
      { st with
        conversations := alistInsert st.conversations oid ctx',
        hash_to_conversation :=
          alistInsert
            (if ctx.history_hash ≠ "" then
              alistPop st.hash_to_conversation ctx.history_hash
             else st.hash_to_conversation)
            ctx'.history_hash oid } := by
  obtain ⟨hnc, hnm, hent⟩ := hInv
  refine ⟨nodupKeys_insert _ _ _ hnc, ?_, ?_⟩
  · by_cases hh : ctx.history_hash ≠ ""
    · rw [if_pos hh]; exact nodupKeys_insert _ _ _ (nodupKeys_pop _ _ hnm)
    · rw [if_neg hh]; exact nodupKeys_insert _ _ _ hnm
  · intro h2 cid hmap
    simp only at hmap ⊢
    by_cases hkey : h2 = ctx'.history_hash
    · subst hkey
      rw [alistGet_insert_self] at hmap
      injection hmap with hmap
      subst hmap
      exact ⟨hnew, ctx', by rw [alistGet_insert_self], rfl⟩
    · rw [alistGet_insert_ne _ _ _ _ hkey] at hmap
      have hold : alistGet st.hash_to_conversation h2 = some cid ∧
          (ctx.history_hash ≠ "" → h2 ≠ ctx.history_hash) := by
        by_cases hh : ctx.history_hash ≠ ""
        · rw [if_pos hh] at hmap
          by_cases hpop : h2 = ctx.history_hash
          · rw [hpop, alistGet_pop_self] at hmap; cases hmap
          · rw [alistGet_pop_ne _ _ _ hpop] at hmap; exact ⟨hmap, fun _ => hpop⟩
        · rw [if_neg hh] at hmap; exact ⟨hmap, fun hc => absurd hc hh⟩
      obtain ⟨hmg, hne2⟩ := hold
      obtain ⟨hne, ctx2, hc2, hh2⟩ := hent h2 cid hmg
      have hcid : cid ≠ oid := by
        intro hc
        subst hc
        rw [hget] at hc2
        injection hc2 with hc2
        subst hc2
        by_cases hh : ctx.history_hash ≠ ""
        · exact (hne2 hh) hh2.symm
        · push_neg at hh
          exact hne (by rw [← hh2, hh])
      exact ⟨hne, ctx2, by rw [alistGet_insert_ne _ _ _ _ hcid]; exact hc2, hh2⟩

/-- `create_conversation` with a fresh gateway id preserves the invariant. -/
theorem hashInv_create (st : MState) (hInv : HashIndexConsistent st)
    (token gcid grid : String) (msgs : List Message) (share oid : String)
    (limit now : Nat) (fresh : alistGet st.conversations oid = none) :
    HashIndexConsistent (createConversation st token gcid grid msgs share oid limit now) := by
  unfold createConversation
  dsimp only
  apply hashInv_evict
  apply hashInv_tc
  exact hashInv_insertPair st hInv oid
    { conversation_id := gcid, last_response_id := grid, created_at := now,
      updated_at := now, message_count := 1, token := token,
      history_hash := if msgs ≠ [] then compute_history_hash msgs else "",
      share_link_id := share } fresh

/-- `update_conversation` preserves the invariant. -/
theorem hashInv_update (st : MState) (hInv : HashIndexConsistent st)
    (oid grid : String) (msgs : Option (List Message)) (share gcid tok : Option String)
    (inc : Bool) (now : Nat) :
    HashIndexConsistent (updateConversation st oid grid msgs share gcid tok inc now) := by
  unfold updateConversation
  cases hget : alistGet st.conversations oid with
  | none => exact hInv
  | some ctx =>
      dsimp only
      cases share <;> cases gcid <;> cases tok <;> dsimp only <;>
        (cases msgs with
         | none => exact hashInv_replaceCtx st hInv oid ctx _ hget rfl
         | some ms =>
             dsimp only
             by_cases hms : ms ≠ []
             · rw [if_pos hms]
               by_cases hcond : compute_history_hash ms ≠ "" ∧
                   compute_history_hash ms ≠ ctx.history_hash
               · rw [if_pos hcond]
                 exact hashInv_rehash st hInv oid ctx _ hget hcond.1
               · rw [if_neg hcond]
                 exact hashInv_replaceCtx st hInv oid ctx _ hget rfl
             · rw [if_neg hms]
               exact hashInv_replaceCtx st hInv oid ctx _ hget rfl)

/-- Every entry maps injectively: two keys to the same conversation id
coincide. -/
theorem hashInv_injective (st : MState) (hInv : HashIndexConsistent st) :
    ∀ h1 h2 cid, alistGet st.hash_to_conversation h1 = some cid →
      alistGet st.hash_to_conversation h2 = some cid → h1 = h2 := by
  intro h1 h2 cid hm1 hm2
  obtain ⟨-, ctx1, hc1, hh1⟩ := hInv.2.2 h1 cid hm1
  obtain ⟨-, ctx2, hc2, hh2⟩ := hInv.2.2 h2 cid hm2
  rw [hc1] at hc2
  injection hc2 with hc2
  rw [← hh1, hc2, hh2]

/-- C7 (amended): in every reachable manager state, the secondary index
`hash_to_conversation` is consistent in the entry-to-store direction — every
entry has a non-empty key and points at a stored context whose current
history_hash equals the key — and is therefore one-to-one (no conversation is
referenced under two keys).  A stored context's hash need not be indexed:
when two live contexts share a hash, only the newest is. -/
theorem C7_hash_index_consistency (st : MState) (h : MReach st) :
    HashIndexConsistent st ∧
    (∀ h1 h2 cid, alistGet st.hash_to_conversation h1 = some cid →
      alistGet st.hash_to_conversation h2 = some cid → h1 = h2) := by
  have hInv : HashIndexConsistent st := by
    induction h with
    | init =>
        refine ⟨by simp [MState.initial, NodupKeys], by simp [MState.initial, NodupKeys], ?_⟩
        intro h cid hmap
        simp [MState.initial, alistGet] at hmap
    | create st' hr token gcid grid msgs share oid limit now fresh ih =>
        exact hashInv_create st' ih token gcid grid msgs share oid limit now fresh
    | update st' hr oid grid msgs share gcid tok inc now ih =>
        exact hashInv_update st' ih oid grid msgs share gcid tok inc now
    | delete st' hr oid ih => exact hashInv_delete st' ih oid
    | evict st' hr token limit ih => exact hashInv_evict st' ih token limit
  exact ⟨hInv, hashInv_injective st hInv⟩

/-- Witness for C7: the amended invariant instantiated at the concrete
reachable state obtained by one `create_conversation` on the initial state. -/
theorem C7_hash_index_consistency_witness :
    HashIndexConsistent (createConversation MState.initial "t" "g" "r"
      [⟨"user", Content.str "x"⟩] "" "a" 10 0) ∧
    (∀ h1 h2 cid,
      alistGet (createConversation MState.initial "t" "g" "r"
        [⟨"user", Content.str "x"⟩] "" "a" 10 0).hash_to_conversation h1 = some cid →
      alistGet (createConversation MState.initial "t" "g" "r"
        [⟨"user", Content.str "x"⟩] "" "a" 10 0).hash_to_conversation h2 = some cid →
      h1 = h2) :=
  C7_hash_index_consistency _
    (MReach.create MState.initial MReach.init "t" "g" "r"
      [⟨"user", Content.str "x"⟩] "" "a" 10 0 rfl)

/-- C8 (amended): on the successful cross-token migration path (stored context
with a non-empty share link, clone returned both ids non-empty) the step
reports success and rebinds the stored context: `conversation_id` becomes the
clone's new conversation id, `last_response_id` the clone's new response id and
`token` the new token; `message_count`, `history_hash`, `share_link_id` and
`created_at` are unchanged; but `updated_at` is refreshed to the migration
time (so not every other field is left untouched); all other stored
conversations and the hash index are unchanged. -/
theorem C8_migration_rebind (st : MState) (oid : String) (ctx : Ctx)
    (newToken nc nr : String) (now : Nat)
    (hget : alistGet st.conversations oid = some ctx)
    (hshare : ctx.share_link_id ≠ "") (hnc : nc ≠ "") (hnr : nr ≠ "") :
    (migrateStep st oid ctx newToken (some (nc, nr)) now).2 = true ∧
    (migrateStep st oid ctx newToken (some (nc, nr)) now).1.hash_to_conversation
      = st.hash_to_conversation ∧
    (migrateStep st oid ctx newToken (some (nc, nr)) now).1.token_conversations
      = st.token_conversations ∧
    (∀ oid2, oid2 ≠ oid →
      alistGet (migrateStep st oid ctx newToken (some (nc, nr)) now).1.conversations oid2
        = alistGet st.conversations oid2) ∧
    ∃ ctx2,
      alistGet (migrateStep st oid ctx newToken (some (nc, nr)) now).1.conversations oid
        = some ctx2 ∧
      ctx2.conversation_id = nc ∧
      ctx2.last_response_id = nr ∧
      ctx2.token = newToken ∧
      ctx2.message_count = ctx.message_count ∧
      ctx2.history_hash = ctx.history_hash ∧
      ctx2.share_link_id = ctx.share_link_id ∧
      ctx2.created_at = ctx.created_at ∧
      ctx2.updated_at = now := by
  unfold migrateStep
  rw [if_pos hshare]
  dsimp only
  rw [if_pos ⟨hnc, hnr⟩]
  unfold updateConversation
  rw [hget]
  dsimp only
  refine ⟨rfl, rfl, rfl, ?_, ?_⟩
  · intro oid2 hne
    exact alistGet_insert_ne _ _ _ _ hne
  · refine ⟨_, alistGet_insert_self _ _ _, rfl, ?_, rfl, rfl, rfl, rfl, rfl, rfl⟩
    dsimp only
    rw [if_pos hnr]

/-- Witness for C8: the rebinding theorem applied to a concrete one-entry
store. -/
theorem C8_migration_rebind_witness :
    (migrateStep
      { conversations :=
          [("a", ⟨"g1", "r1", 3, 4, 7, "t1", "", "S"⟩)],
        token_conversations := [("t1", ["a"])],
        hash_to_conversation := [] }
      "a" ⟨"g1", "r1", 3, 4, 7, "t1", "", "S"⟩ "t2" (some ("g2", "r2")) 9).2 = true ∧
    (migrateStep
      { conversations :=
          [("a", ⟨"g1", "r1", 3, 4, 7, "t1", "", "S"⟩)],
        token_conversations := [("t1", ["a"])],
        hash_to_conversation := [] }
      "a" ⟨"g1", "r1", 3, 4, 7, "t1", "", "S"⟩ "t2" (some ("g2", "r2")) 9).1.hash_to_conversation
      = ([] : List (String × String)) ∧
    (migrateStep
      { conversations :=
          [("a", ⟨"g1", "r1", 3, 4, 7, "t1", "", "S"⟩)],
        token_conversations := [("t1", ["a"])],
        hash_to_conversation := [] }
      "a" ⟨"g1", "r1", 3, 4, 7, "t1", "", "S"⟩ "t2" (some ("g2", "r2")) 9).1.token_conversations
      = [("t1", ["a"])] ∧
    (∀ oid2, oid2 ≠ "a" →
      alistGet (migrateStep
        { conversations :=
            [("a", ⟨"g1", "r1", 3, 4, 7, "t1", "", "S"⟩)],
          token_conversations := [("t1", ["a"])],
          hash_to_conversation := [] }
        "a" ⟨"g1", "r1", 3, 4, 7, "t1", "", "S"⟩ "t2" (some ("g2", "r2")) 9).1.conversations oid2
        = alistGet [("a", (⟨"g1", "r1", 3, 4, 7, "t1", "", "S"⟩ : Ctx))] oid2) ∧
    ∃ ctx2,
      alistGet (migrateStep
        { conversations :=
            [("a", ⟨"g1", "r1", 3, 4, 7, "t1", "", "S"⟩)],
          token_conversations := [("t1", ["a"])],
          hash_to_conversation := [] }
        "a" ⟨"g1", "r1", 3, 4, 7, "t1", "", "S"⟩ "t2" (some ("g2", "r2")) 9).1.conversations "a"
        = some ctx2 ∧
      ctx2.conversation_id = "g2" ∧
      ctx2.last_response_id = "r2" ∧
      ctx2.token = "t2" ∧
      ctx2.message_count = (7 : Nat) ∧
      ctx2.history_hash = "" ∧
      ctx2.share_link_id = "S" ∧
      ctx2.created_at = (3 : Nat) ∧
      ctx2.updated_at = (9 : Nat) :=
  C8_migration_rebind
    { conversations := [("a", ⟨"g1", "r1", 3, 4, 7, "t1", "", "S"⟩)],
      token_conversations := [("t1", ["a"])],
      hash_to_conversation := [] }
    "a" ⟨"g1", "r1", 3, 4, 7, "t1", "", "S"⟩ "t2" "g2" "r2" 9 (by decide)
    (by decide) (by decide) (by decide)

/-- Counterexample to C8 as stated: "all other context updates are not
performed" fails for `updated_at`.  The migration path calls
`update_conversation`, which always refreshes `updated_at` to the current
time: a context created and last updated at time 4 ends up with
`updated_at = 9` after migrating at time 9. -/
theorem C8_counterexample :
    (alistGet (migrateStep
      { conversations := [("a", ⟨"g1", "r1", 3, 4, 7, "t1", "", "S"⟩)],
        token_conversations := [("t1", ["a"])],
        hash_to_conversation := [] }
      "a" ⟨"g1", "r1", 3, 4, 7, "t1", "", "S"⟩ "t2" (some ("g2", "r2")) 9).1.conversations
      "a").map Ctx.updated_at = some 9 ∧
    (⟨"g1", "r1", 3, 4, 7, "t1", "", "S"⟩ : Ctx).updated_at = 4 := by
  exact ⟨by decide, by decide⟩

/-- Counterexample to C7 as stated: the store-to-index direction fails.  Two
`create_conversation` calls with identical messages produce a reachable state
in which conversation "a" is still stored with the shared non-empty hash, but
`hash_to_conversation` maps that hash to "b" (the second create silently
overwrote the entry), so `hash_to_conversation[h]` is not the id of every
stored context whose hash is `h`. -/
theorem C7_counterexample :
    MReach (createConversation
      (createConversation MState.initial "t" "g1" "r1"
        [⟨"user", Content.str "x"⟩] "" "a" 10 0)
      "t" "g2" "r2" [⟨"user", Content.str "x"⟩] "" "b" 10 1) ∧
    (alistGet (createConversation
      (createConversation MState.initial "t" "g1" "r1"
        [⟨"user", Content.str "x"⟩] "" "a" 10 0)
      "t" "g2" "r2" [⟨"user", Content.str "x"⟩] "" "b" 10 1).conversations "a").map
        Ctx.history_hash = some "12b548603f7d6022" ∧
    alistGet (createConversation
      (createConversation MState.initial "t" "g1" "r1"
        [⟨"user", Content.str "x"⟩] "" "a" 10 0)
      "t" "g2" "r2" [⟨"user", Content.str "x"⟩] "" "b" 10 1).hash_to_conversation
        "12b548603f7d6022" = some "b" :=
  ⟨MReach.create _
      (MReach.create MState.initial MReach.init "t" "g1" "r1"
        [⟨"user", Content.str "x"⟩] "" "a" 10 0 rfl)
      "t" "g2" "r2" [⟨"user", Content.str "x"⟩] "" "b" 10 1 (by decide),
    by decide, by decide⟩

end Grok2Api
